import Mathlib

/-!
Verification of the voxel storage engine (Banyc/voxel).

The development shallowly embeds the three source files of the repository:

* `src/interval_tree.rs` — the run-length-encoded `ContiguousIntervalTree`;
* `src/chunk.rs` — coordinate linearization, chunk map and the range iterators;
* `src/bit_array.rs` — the word-packed `BitArray`.

Rust panics (failed `assert!`, out-of-bounds `Vec` indexing, `Option::unwrap` on
`None`) are modelled by returning `none`; the Rust `loop` constructs are given
explicit fuel, chosen so that fuel can run out only in states where the source
would already have failed an assertion.
-/

/-- `IntervalNode<T>` (interval_tree.rs): one run, starting at `cell_i_start`,
holding `value` on `[cell_i_start, next run start or capacity)`. -/
structure IntervalNode (T : Type) where
  cell_i_start : Nat
  value : T
deriving DecidableEq, Repr

/-- `ContiguousIntervalTree<T>` (interval_tree.rs): a sorted run list over a
linear index space of `capacity` cells. -/
structure ContiguousIntervalTree (T : Type) where
  intervals : List (IntervalNode T)
  capacity : Nat
deriving DecidableEq, Repr

/-- `Vec::splice(a..b, xs)`: replace the elements at positions `[a, b)` with `xs`.
`Vec::remove a` is `listSplice l a (a+1) []` and `Vec::insert a x` is
`listSplice l a a [x]`. -/
def listSplice {α : Type} (l : List α) (a b : Nat) (xs : List α) : List α :=
  l.take a ++ xs ++ l.drop b

/-- The strictly-increasing-starts check of `check_rep`: every pair of adjacent
runs has strictly increasing `cell_i_start` (the loop with `prev_index`). -/
def strictAdjStarts {T : Type} : List (IntervalNode T) → Bool
  | a :: b :: rest => decide (a.cell_i_start < b.cell_i_start) && strictAdjStarts (b :: rest)
  | _ => true

/-- `ContiguousIntervalTree::check_rep` (interval_tree.rs lines 7–17):
first run starts at 0 (`first().unwrap()` panics on the empty list, modelled as
`false`), starts strictly increase, and the last start is below `capacity`. -/
def ContiguousIntervalTree.check_rep {T : Type} (t : ContiguousIntervalTree T) : Bool :=
  (match t.intervals.head? with
   | some first => decide (first.cell_i_start = 0)
   | none => false)
  && strictAdjStarts t.intervals
  && (match t.intervals.getLast? with
      | some last => decide (last.cell_i_start < t.capacity)
      | none => false)

/-- `ContiguousIntervalTree::new`: constructs the tree and runs `check_rep`
(a failed assertion is modelled by `none`). -/
def ContiguousIntervalTree.new {T : Type} (nodes : List (IntervalNode T)) (capacity : Nat) :
    Option (ContiguousIntervalTree T) :=
  let this : ContiguousIntervalTree T := ⟨nodes, capacity⟩
  if this.check_rep then some this else none

/-- `ContiguousIntervalTree::interval_cell_i_end` (interval_tree.rs lines 28–33)
over a bare run list: the exclusive end of run `interval_i`: the next run's
start, or `capacity` for the last run. -/
def intervalCellIEnd {T : Type} (intervals : List (IntervalNode T)) (capacity : Nat)
    (interval_i : Nat) : Nat :=
  match intervals[interval_i + 1]? with
  | some x => x.cell_i_start
  | none => capacity

/-- `ContiguousIntervalTree::interval_cell_i_end` as a method on the tree. -/
def ContiguousIntervalTree.interval_cell_i_end {T : Type} (t : ContiguousIntervalTree T)
    (interval_i : Nat) : Nat :=
  intervalCellIEnd t.intervals t.capacity interval_i

/-- The binary-search `loop` of `ContiguousIntervalTree::interval_i`
(interval_tree.rs lines 34–54), with explicit fuel. Each iteration strictly
shrinks `hi - lo`, so with entry fuel `intervals.length` the fuel can reach 0
only when `lo ≥ hi`, i.e. exactly when the source `assert!(start < end)` fails;
both are modelled as `none`.  An out-of-range probe (`self.intervals[mid]` panic)
is also `none`. -/
def intervalIGo {T : Type} (intervals : List (IntervalNode T)) (capacity : Nat)
    (cell_i : Nat) : Nat → Nat → Nat → Option Nat
  | 0, _, _ => none
  | fuel + 1, lo, hi =>
    if lo < hi then
      let mid := (lo + hi) / 2
      match intervals[mid]? with
      | none => none
      | some interval =>
        if interval.cell_i_start ≤ cell_i then
          if interval.cell_i_start ≤ cell_i ∧ cell_i < intervalCellIEnd intervals capacity mid
          then some mid
          else intervalIGo intervals capacity cell_i fuel (mid + 1) hi
        else intervalIGo intervals capacity cell_i fuel lo mid
    else none

/-- `ContiguousIntervalTree::interval_i`: binary search over the whole run list. -/
def ContiguousIntervalTree.interval_i {T : Type} (t : ContiguousIntervalTree T)
    (cell_i : Nat) : Option Nat :=
  intervalIGo t.intervals t.capacity cell_i t.intervals.length 0 t.intervals.length

/-- `ContiguousIntervalTree::get` (interval_tree.rs lines 57–59): the value of
the run containing `index`. -/
def ContiguousIntervalTree.get {T : Type} (t : ContiguousIntervalTree T) (index : Nat) :
    Option T :=
  (t.interval_i index).bind fun j => (t.intervals[j]?).map (·.value)

/-- The `should_merge_with_prev_node` test inside `set` (interval_tree.rs lines
81–89): whether `interval_i.checked_sub(1).and_then(|i| self.intervals.get(i))`
yields a run holding `value`. -/
def shouldMergePrev {T : Type} [DecidableEq T] (t : ContiguousIntervalTree T)
    (interval_i : Nat) (value : T) : Bool :=
  match interval_i with
  | 0 => false
  | prev_i + 1 =>
    match t.intervals[prev_i]? with
    | some prev => decide (prev.value = value)
    | none => false

/-- `ContiguousIntervalTree::set` (interval_tree.rs lines 69–144). `none` models
a panic (unreachable for an in-range index on a tree satisfying `check_rep`). -/
def ContiguousIntervalTree.set {T : Type} [DecidableEq T] (t : ContiguousIntervalTree T)
    (index : Nat) (value : T) : Option (ContiguousIntervalTree T) :=
  match t.interval_i index with
  | none => none
  | some interval_i =>
    match t.intervals[interval_i]? with
    | none => none
    | some interval =>
      let cellEnd := t.interval_cell_i_end interval_i
      if interval.value = value then
        some t
      else if interval.cell_i_start = index then
        let should_merge_with_prev_node : Bool := shouldMergePrev t interval_i value
        let is_only_one : Prop := cellEnd - interval.cell_i_start = 1
        -- Shrink the current node to the right
        let intervals1 :=
          if is_only_one then t.intervals
          else t.intervals.set interval_i
            ⟨interval.cell_i_start + 1, interval.value⟩
        if should_merge_with_prev_node then
          if is_only_one then
            -- Remove the current node
            let removed := listSplice t.intervals interval_i (interval_i + 1) []
            some { t with intervals := removed }
          else
            some { t with intervals := intervals1 }
        else
          let range_end := if is_only_one then interval_i + 1 else interval_i
          let spliced := listSplice intervals1 interval_i range_end [⟨index, value⟩]
          some { t with intervals := spliced }
      else if index = cellEnd - 1 then
        match t.intervals[interval_i + 1]? with
        | some next =>
          if next.value = value then
            -- Merge with the next node
            let merged := t.intervals.set (interval_i + 1) ⟨next.cell_i_start + 1, next.value⟩
            some { t with intervals := merged }
          else
            -- Append to the current node
            let appended := listSplice t.intervals (interval_i + 1) (interval_i + 1) [⟨index, value⟩]
            some { t with intervals := appended }
        | none =>
          let appended := listSplice t.intervals (interval_i + 1) (interval_i + 1) [⟨index, value⟩]
          some { t with intervals := appended }
      else
        -- Split the current node
        let split := listSplice t.intervals (interval_i + 1) (interval_i + 1)
          [⟨index, value⟩, ⟨index + 1, interval.value⟩]
        some { t with intervals := split }

/-- The state of `CellWiseIter` (interval_tree.rs lines 153–166): the current
run index and the offset already consumed inside that run. -/
structure CellWiseIterState where
  interval_i : Nat
  cell_i : Nat
deriving DecidableEq, Repr

/-- `CellWiseIter::new`: positioned on the first cell of the first run. -/
def CellWiseIterState.init : CellWiseIterState := ⟨0, 0⟩

/-- `CellWiseIter::next` (interval_tree.rs lines 171–184): yield the current
run's value and advance, stepping to the next run when the current one is
exhausted.  `none` is the iterator's own `None` when all runs were consumed
(an out-of-range run index — impossible from reachable states — is also `none`). -/
def CellWiseIterState.next {T : Type} (t : ContiguousIntervalTree T)
    (s : CellWiseIterState) : Option (T × CellWiseIterState) :=
  if s.interval_i = t.intervals.length then none
  else
    match t.intervals[s.interval_i]? with
    | none => none
    | some interval =>
      let cell_i := s.cell_i + 1
      let interval_len := t.interval_cell_i_end s.interval_i - interval.cell_i_start
      if cell_i = interval_len then some (interval.value, ⟨s.interval_i + 1, 0⟩)
      else some (interval.value, ⟨s.interval_i, cell_i⟩)

/-- `Iterator::nth(n)` on `CellWiseIter`: advance `n + 1` times, returning the
last value obtained. -/
def CellWiseIterState.nth {T : Type} (t : ContiguousIntervalTree T)
    (s : CellWiseIterState) (n : Nat) : Option T :=
  match s.next t with
  | none => none
  | some (v, s2) =>
    match n with
    | 0 => some v
    | m + 1 => CellWiseIterState.nth t s2 m

/-- Whether `set index value` would take the `// Merge with the next node`
branch (interval_tree.rs lines 132–137): the located run does not already hold
`value`, `index` is its last but not first cell, and the following run holds
`value`. -/
def mergeNextTaken {T : Type} [DecidableEq T] (t : ContiguousIntervalTree T)
    (index : Nat) (value : T) : Bool :=
  match t.interval_i index with
  | none => false
  | some interval_i =>
    match t.intervals[interval_i]? with
    | none => false
    | some interval =>
      !decide (interval.value = value) && !decide (interval.cell_i_start = index) &&
        decide (index = t.interval_cell_i_end interval_i - 1) &&
        (match t.intervals[interval_i + 1]? with
         | some next => decide (next.value = value)
         | none => false)

/-- No two adjacent runs hold equal values (the maximality property claimed by
the spec; `check_rep` itself does not test it). -/
def noAdjacentEqualValues {T : Type} [DecidableEq T] : List (IntervalNode T) → Bool
  | a :: b :: rest => !decide (a.value = b.value) && noAdjacentEqualValues (b :: rest)
  | _ => true

example : ContiguousIntervalTree.get ⟨[⟨0, 0⟩, ⟨3, 1⟩, ⟨4, 2⟩], 16⟩ 5 = some 2 := by decide
example : ContiguousIntervalTree.get ⟨[⟨0, 0⟩, ⟨3, 1⟩, ⟨4, 2⟩], 16⟩ 3 = some 1 := by decide
example : ContiguousIntervalTree.get ⟨[⟨0, 0⟩, ⟨3, 1⟩, ⟨4, 2⟩], 16⟩ 0 = some 0 := by decide
example : ContiguousIntervalTree.set ⟨[⟨0, 0⟩, ⟨3, 1⟩, ⟨4, 2⟩], 16⟩ 0 3 =
    some ⟨[⟨0, 3⟩, ⟨1, 0⟩, ⟨3, 1⟩, ⟨4, 2⟩], 16⟩ := by decide
example : ContiguousIntervalTree.set ⟨[⟨0, 3⟩, ⟨1, 0⟩, ⟨3, 1⟩, ⟨4, 2⟩], 16⟩ 2 4 =
    some ⟨[⟨0, 3⟩, ⟨1, 0⟩, ⟨2, 4⟩, ⟨3, 1⟩, ⟨4, 2⟩], 16⟩ := by decide
example : CellWiseIterState.nth (⟨[⟨0, 0⟩, ⟨3, 1⟩, ⟨4, 2⟩], 16⟩ : ContiguousIntervalTree Nat)
    CellWiseIterState.init 4 = some 2 := by decide

/-! ### Consequences of `check_rep` -/

theorem strictAdjStarts_iff {T : Type} :
    ∀ l : List (IntervalNode T), strictAdjStarts l = true ↔
      ∀ (j : Nat) (a b : IntervalNode T), l[j]? = some a → l[j + 1]? = some b →
        a.cell_i_start < b.cell_i_start
  | [] => by
    simp only [strictAdjStarts, true_iff]
    intro j a b ha hb
    simp at ha
  | [a] => by
    simp only [strictAdjStarts, true_iff]
    intro j x y hx hy
    rcases j with _ | j <;> simp at hy
  | a :: b :: rest => by
    rw [show strictAdjStarts (a :: b :: rest) =
        (decide (a.cell_i_start < b.cell_i_start) && strictAdjStarts (b :: rest)) from rfl]
    rw [Bool.and_eq_true, decide_eq_true_eq, strictAdjStarts_iff (b :: rest)]
    constructor
    · rintro ⟨hab, htail⟩ j x y hx hy
      rcases j with _ | j
      · simp only [List.getElem?_cons_zero, Option.some.injEq] at hx
        simp only [List.getElem?_cons_succ, List.getElem?_cons_zero,
          Option.some.injEq] at hy
        subst hx; subst hy; exact hab
      · rw [List.getElem?_cons_succ] at hx
        rw [show j + 1 + 1 = (j + 1) + 1 from rfl, List.getElem?_cons_succ] at hy
        exact htail j x y hx hy
    · intro h
      refine ⟨h 0 a b (by simp) (by simp), fun j x y hx hy => ?_⟩
      refine h (j + 1) x y (by rw [List.getElem?_cons_succ]; exact hx) ?_
      rw [show j + 1 + 1 = (j + 1) + 1 from rfl, List.getElem?_cons_succ]
      exact hy

/-- All pairs of runs (not just adjacent ones) have strictly increasing starts. -/
theorem sortedStarts_of_adj {T : Type} (l : List (IntervalNode T))
    (h : strictAdjStarts l = true) :
    ∀ (j k : Nat) (a b : IntervalNode T), j < k → l[j]? = some a → l[k]? = some b →
      a.cell_i_start < b.cell_i_start := by
  intro j k a b hjk hja hjb
  obtain ⟨d, rfl⟩ : ∃ d, k = j + 1 + d := ⟨k - (j + 1), by omega⟩
  clear hjk
  induction d generalizing b with
  | zero => exact (strictAdjStarts_iff l).1 h j a b hja hjb
  | succ d ih =>
    have hblen : j + 1 + (d + 1) < l.length := (List.getElem?_eq_some_iff.mp hjb).1
    have hc : l[j + 1 + d]? = some l[j + 1 + d] := List.getElem?_eq_getElem (by omega)
    refine lt_trans (ih _ hc) ((strictAdjStarts_iff l).1 h (j + 1 + d) _ b hc ?_)
    have : j + 1 + d + 1 = j + 1 + (d + 1) := by omega
    rw [this]; exact hjb

theorem check_rep_iff {T : Type} (t : ContiguousIntervalTree T) :
    t.check_rep = true ↔
      (∃ first, t.intervals[0]? = some first ∧ first.cell_i_start = 0) ∧
      strictAdjStarts t.intervals = true ∧
      (∃ last, t.intervals[t.intervals.length - 1]? = some last ∧
        last.cell_i_start < t.capacity) := by
  unfold ContiguousIntervalTree.check_rep
  rw [Bool.and_eq_true, Bool.and_eq_true]
  rw [List.head?_eq_getElem?, List.getLast?_eq_getElem?]
  constructor
  · rintro ⟨⟨h1, h2⟩, h3⟩
    refine ⟨?_, h2, ?_⟩
    · cases hx : t.intervals[0]? with
      | none => rw [hx] at h1; simp at h1
      | some first =>
        rw [hx] at h1; simp only [decide_eq_true_eq] at h1; exact ⟨first, rfl, h1⟩
    · cases hx : t.intervals[t.intervals.length - 1]? with
      | none => rw [hx] at h3; simp at h3
      | some last =>
        rw [hx] at h3; simp only [decide_eq_true_eq] at h3; exact ⟨last, rfl, h3⟩
  · rintro ⟨⟨first, hf, hf0⟩, h2, ⟨last, hl, hlc⟩⟩
    refine ⟨⟨?_, h2⟩, ?_⟩
    · rw [hf]; simpa using hf0
    · rw [hl]; simpa using hlc

/-- Every run's start is below `capacity`. -/
theorem start_lt_capacity {T : Type} (t : ContiguousIntervalTree T)
    (hrep : t.check_rep = true) {j : Nat} {nd : IntervalNode T}
    (hj : t.intervals[j]? = some nd) : nd.cell_i_start < t.capacity := by
  obtain ⟨-, hadj, last, hl, hlc⟩ := (check_rep_iff t).1 hrep
  have hjlen : j < t.intervals.length := (List.getElem?_eq_some_iff.mp hj).1
  rcases Nat.lt_or_ge j (t.intervals.length - 1) with hcase | hcase
  · exact lt_trans (sortedStarts_of_adj _ hadj j _ nd last hcase hj hl) hlc
  · have : j = t.intervals.length - 1 := by omega
    subst this
    rw [hj] at hl
    cases hl
    exact hlc

/-- Each run starts strictly before its own end. -/
theorem start_lt_cellEnd {T : Type} (t : ContiguousIntervalTree T)
    (hrep : t.check_rep = true) {j : Nat} {nd : IntervalNode T}
    (hj : t.intervals[j]? = some nd) :
    nd.cell_i_start < intervalCellIEnd t.intervals t.capacity j := by
  obtain ⟨-, hadj, -⟩ := (check_rep_iff t).1 hrep
  unfold intervalCellIEnd
  cases hx : t.intervals[j + 1]? with
  | none => exact start_lt_capacity t hrep hj
  | some x => exact (strictAdjStarts_iff _).1 hadj j _ _ hj hx

/-- A run's end is at most the start of any later run. -/
theorem cellEnd_le_start {T : Type} (t : ContiguousIntervalTree T)
    (hrep : t.check_rep = true) {j k : Nat} {b : IntervalNode T} (hjk : j < k)
    (hk : t.intervals[k]? = some b) :
    intervalCellIEnd t.intervals t.capacity j ≤ b.cell_i_start := by
  obtain ⟨-, hadj, -⟩ := (check_rep_iff t).1 hrep
  have hklen : k < t.intervals.length := (List.getElem?_eq_some_iff.mp hk).1
  have hc : t.intervals[j + 1]? = some t.intervals[j + 1] :=
    List.getElem?_eq_getElem (by omega)
  unfold intervalCellIEnd
  rw [hc]
  rcases Nat.lt_or_ge (j + 1) k with hcase | hcase
  · exact le_of_lt (sortedStarts_of_adj _ hadj (j + 1) k _ _ hcase hc hk)
  · have : j + 1 = k := by omega
    subst this
    rw [hc] at hk
    cases hk
    exact le_refl _

/-- A run's end never exceeds `capacity`. -/
theorem cellEnd_le_capacity {T : Type} (t : ContiguousIntervalTree T)
    (hrep : t.check_rep = true) (j : Nat) :
    intervalCellIEnd t.intervals t.capacity j ≤ t.capacity := by
  unfold intervalCellIEnd
  cases hx : t.intervals[j + 1]? with
  | none => exact le_refl _
  | some x => exact le_of_lt (start_lt_capacity t hrep hx)

/-- "Run `j` contains cell `i`": `r.start <= i < next start or capacity`. -/
def containsAt {T : Type} (l : List (IntervalNode T)) (cap j i : Nat) : Prop :=
  ∃ nd, l[j]? = some nd ∧ nd.cell_i_start ≤ i ∧ i < intervalCellIEnd l cap j

theorem containsAt_unique {T : Type} (t : ContiguousIntervalTree T)
    (hrep : t.check_rep = true) {j k i : Nat}
    (h1 : containsAt t.intervals t.capacity j i)
    (h2 : containsAt t.intervals t.capacity k i) : j = k := by
  obtain ⟨a, ha, ha1, ha2⟩ := h1
  obtain ⟨b, hb, hb1, hb2⟩ := h2
  by_contra hne
  rcases Nat.lt_or_ge j k with hjk | hjk
  · exact absurd (lt_of_lt_of_le ha2 (le_trans (cellEnd_le_start t hrep hjk hb) hb1))
      (lt_irrefl i)
  · have hkj : k < j := by omega
    exact absurd (lt_of_lt_of_le hb2 (le_trans (cellEnd_le_start t hrep hkj ha) ha1))
      (lt_irrefl i)

theorem containsAt_from {T : Type} (t : ContiguousIntervalTree T)
    (hrep : t.check_rep = true) {i : Nat} (hi : i < t.capacity) :
    ∀ d m nd, t.intervals.length - m ≤ d → t.intervals[m]? = some nd →
      nd.cell_i_start ≤ i → ∃ j, containsAt t.intervals t.capacity j i
  | 0, m, nd, hd, hm, hle => by
    have : m < t.intervals.length := (List.getElem?_eq_some_iff.mp hm).1
    omega
  | d + 1, m, nd, hd, hm, hle => by
    by_cases hcase : i < intervalCellIEnd t.intervals t.capacity m
    · exact ⟨m, nd, hm, hle, hcase⟩
    · cases hx : t.intervals[m + 1]? with
      | none =>
        exfalso
        have : intervalCellIEnd t.intervals t.capacity m = t.capacity := by
          unfold intervalCellIEnd; rw [hx]
        omega
      | some next =>
        have hnext : next.cell_i_start ≤ i := by
          have : intervalCellIEnd t.intervals t.capacity m = next.cell_i_start := by
            unfold intervalCellIEnd; rw [hx]
          omega
        have hlen : m + 1 < t.intervals.length := (List.getElem?_eq_some_iff.mp hx).1
        exact containsAt_from t hrep hi d (m + 1) next (by omega) hx hnext

theorem containsAt_exists {T : Type} (t : ContiguousIntervalTree T)
    (hrep : t.check_rep = true) {i : Nat} (hi : i < t.capacity) :
    ∃ j, containsAt t.intervals t.capacity j i := by
  obtain ⟨first, hf, hf0⟩ := ((check_rep_iff t).1 hrep).1
  exact containsAt_from t hrep hi t.intervals.length 0 first (by omega) hf (by omega)

/-! ### Correctness of the binary search `interval_i` -/

theorem intervalIGo_finds {T : Type} (t : ContiguousIntervalTree T)
    (hrep : t.check_rep = true) (i : Nat) :
    ∀ (fuel lo hi j : Nat), hi ≤ t.intervals.length → hi - lo ≤ fuel → lo ≤ j → j < hi →
      containsAt t.intervals t.capacity j i →
      intervalIGo t.intervals t.capacity i fuel lo hi = some j
  | 0, lo, hi, j, hlen, hfuel, hlo, hhi, hcont => by omega
  | fuel + 1, lo, hi, j, hlen, hfuel, hlo, hhi, hcont => by
    have hlohi : lo < hi := by omega
    have hmidlt : (lo + hi) / 2 < hi := by omega
    have hmidge : lo ≤ (lo + hi) / 2 := by omega
    have hmid : t.intervals[(lo + hi) / 2]? = some t.intervals[(lo + hi) / 2] :=
      List.getElem?_eq_getElem (by omega)
    by_cases hc1 : t.intervals[(lo + hi) / 2].cell_i_start ≤ i
    · by_cases hc2 : i < intervalCellIEnd t.intervals t.capacity ((lo + hi) / 2)
      · have hj : (lo + hi) / 2 = j :=
          containsAt_unique t hrep ⟨_, hmid, hc1, hc2⟩ hcont
        subst hj
        simp only [intervalIGo, if_pos hlohi, hmid, if_pos hc1,
          if_pos (And.intro hc1 hc2)]
      · have hj : (lo + hi) / 2 + 1 ≤ j := by
          by_contra hlt
          obtain ⟨nd, hnd, hnd1, hnd2⟩ := hcont
          rcases Nat.lt_or_ge j ((lo + hi) / 2) with hcase | hcase
          · exact absurd (lt_of_lt_of_le hnd2
              (le_trans (cellEnd_le_start t hrep hcase hmid) hc1)) (lt_irrefl i)
          · have : j = (lo + hi) / 2 := by omega
            subst this
            rw [hnd] at hmid
            cases hmid
            exact hc2 hnd2
        simp only [intervalIGo, if_pos hlohi, hmid, if_pos hc1]
        rw [if_neg (by intro hconj; exact hc2 hconj.2)]
        exact intervalIGo_finds t hrep i fuel ((lo + hi) / 2 + 1) hi j hlen (by omega) hj hhi hcont
    · have hj : j < (lo + hi) / 2 := by
        by_contra hge
        obtain ⟨nd, hnd, hnd1, hnd2⟩ := hcont
        rcases Nat.lt_or_ge ((lo + hi) / 2) j with hcase | hcase
        · exact hc1 (le_trans (le_of_lt (sortedStarts_of_adj t.intervals
            ((check_rep_iff t).1 hrep).2.1 _ _ _ _ hcase hmid hnd)) hnd1)
        · have : j = (lo + hi) / 2 := by omega
          subst this
          rw [hnd] at hmid
          cases hmid
          exact hc1 hnd1
      simp only [intervalIGo, if_pos hlohi, hmid, if_neg hc1]
      exact intervalIGo_finds t hrep i fuel lo ((lo + hi) / 2) j (by omega) (by omega) hlo hj hcont

/-- For a well-formed tree and an in-range index, the binary search succeeds and
returns the containing run. -/
theorem interval_i_spec {T : Type} (t : ContiguousIntervalTree T)
    (hrep : t.check_rep = true) {i : Nat} (hi : i < t.capacity) :
    ∃ j, t.interval_i i = some j ∧ containsAt t.intervals t.capacity j i := by
  obtain ⟨j, hj⟩ := containsAt_exists t hrep hi
  have hjlen : j < t.intervals.length := by
    obtain ⟨nd, hnd, -⟩ := hj
    exact (List.getElem?_eq_some_iff.mp hnd).1
  exact ⟨j, intervalIGo_finds t hrep i t.intervals.length 0 t.intervals.length j
    (le_refl _) (by omega) (Nat.zero_le _) hjlen hj, hj⟩

theorem intervalIGo_none_of_ge {T : Type} (t : ContiguousIntervalTree T)
    (hrep : t.check_rep = true) {i : Nat} (hi : t.capacity ≤ i) :
    ∀ (fuel lo hi2 : Nat), intervalIGo t.intervals t.capacity i fuel lo hi2 = none
  | 0, lo, hi2 => rfl
  | fuel + 1, lo, hi2 => by
    by_cases hlohi : lo < hi2
    · cases hmid : t.intervals[(lo + hi2) / 2]? with
      | none => simp only [intervalIGo, if_pos hlohi, hmid]
      | some nd =>
        have hc1 : nd.cell_i_start ≤ i := le_trans (le_of_lt (start_lt_capacity t hrep hmid)) hi
        have hc2 : ¬ i < intervalCellIEnd t.intervals t.capacity ((lo + hi2) / 2) := by
          have := cellEnd_le_capacity t hrep ((lo + hi2) / 2)
          omega
        simp only [intervalIGo, if_pos hlohi, hmid, if_pos hc1]
        rw [if_neg (by intro hconj; exact hc2 hconj.2)]
        exact intervalIGo_none_of_ge t hrep hi fuel ((lo + hi2) / 2 + 1) hi2
    · simp only [intervalIGo, if_neg hlohi]

/-- `interval_i` on an out-of-range cell index diverges into `none` (the Rust
code would fail its `assert!` or index out of bounds). -/
theorem interval_i_none_of_ge_cap {T : Type} (t : ContiguousIntervalTree T)
    (hrep : t.check_rep = true) {i : Nat} (hi : t.capacity ≤ i) :
    t.interval_i i = none :=
  intervalIGo_none_of_ge t hrep hi t.intervals.length 0 t.intervals.length

/-- `get` on a well-formed tree returns the value of the containing run. -/
theorem get_spec {T : Type} (t : ContiguousIntervalTree T)
    (hrep : t.check_rep = true) {i : Nat} (hi : i < t.capacity) :
    ∃ j nd, t.interval_i i = some j ∧ t.intervals[j]? = some nd ∧
      nd.cell_i_start ≤ i ∧ i < intervalCellIEnd t.intervals t.capacity j ∧
      t.get i = some nd.value := by
  obtain ⟨j, hput, nd, hnd, h1, h2⟩ := interval_i_spec t hrep hi
  refine ⟨j, nd, hput, hnd, h1, h2, ?_⟩
  simp [ContiguousIntervalTree.get, hput, hnd]

/-! ### The cell-wise iterator -/

/-- Modelled from the spec: `cellWiseIterFrom(intraChunkIndex(c))` — a cell-wise
iterator "positioned at the right run" so that the next yielded value is the one
of cell `start`.  `chunk.rs` calls `cell_wise_iter` with a start index, but the
revision of `ContiguousIntervalTree` under `src/` exposes only the zero-argument
`cell_wise_iter`; the positioned constructor is reconstructed here from the
spec's description (run found by the tree's own search, offset inside the run). -/
def cell_wise_iter_from {T : Type} (t : ContiguousIntervalTree T) (start : Nat) :
    CellWiseIterState :=
  match t.interval_i start with
  | some j =>
    ⟨j, start - (match t.intervals[j]? with
                 | some nd => nd.cell_i_start
                 | none => 0)⟩
  | none => ⟨t.intervals.length, 0⟩

theorem init_eq_cell_wise_iter_from {T : Type} (t : ContiguousIntervalTree T)
    (hrep : t.check_rep = true) :
    CellWiseIterState.init = cell_wise_iter_from t 0 := by
  obtain ⟨first, hf, hf0⟩ := ((check_rep_iff t).1 hrep).1
  have hcap : 0 < t.capacity := by
    obtain ⟨-, -, last, hl, hlc⟩ := (check_rep_iff t).1 hrep
    omega
  obtain ⟨j, hj, hcont⟩ := interval_i_spec t hrep hcap
  have hj0 : j = 0 :=
    containsAt_unique t hrep hcont
      ⟨first, hf, by omega, by have := start_lt_cellEnd t hrep hf; omega⟩
  subst hj0
  obtain ⟨nd, hnd, -, -⟩ := hcont
  have hnf : nd = first := by rw [hnd] at hf; cases hf; rfl
  subst hnf
  unfold cell_wise_iter_from
  simp only [hj, hnd, CellWiseIterState.init, hf0]

/-- Stepping the cell-wise iterator positioned at cell `p < capacity` yields the
value `get p` and leaves the iterator positioned at cell `p + 1`. -/
theorem next_cell_wise_iter_from {T : Type} (t : ContiguousIntervalTree T)
    (hrep : t.check_rep = true) (p : Nat) (hp : p < t.capacity) :
    ∃ v, t.get p = some v ∧
      CellWiseIterState.next t (cell_wise_iter_from t p) =
        some (v, cell_wise_iter_from t (p + 1)) := by
  obtain ⟨j, nd, hj, hnd, h1, h2, hget⟩ := get_spec t hrep hp
  have hjlen : j < t.intervals.length := (List.getElem?_eq_some_iff.mp hnd).1
  refine ⟨nd.value, hget, ?_⟩
  have hstate : cell_wise_iter_from t p = ⟨j, p - nd.cell_i_start⟩ := by
    unfold cell_wise_iter_from
    simp only [hj, hnd]
  rw [hstate]
  unfold CellWiseIterState.next
  dsimp only
  rw [if_neg (show ¬ j = t.intervals.length by omega)]
  simp only [hnd]
  by_cases hcase : p + 1 < intervalCellIEnd t.intervals t.capacity j
  · have hni : ¬ (p - nd.cell_i_start + 1 =
        t.interval_cell_i_end j - nd.cell_i_start) := by
      unfold ContiguousIntervalTree.interval_cell_i_end
      omega
    rw [if_neg hni]
    have : cell_wise_iter_from t (p + 1) = ⟨j, p + 1 - nd.cell_i_start⟩ := by
      have hp1 : p + 1 < t.capacity :=
        lt_of_lt_of_le hcase (cellEnd_le_capacity t hrep j)
      obtain ⟨j2, hj2, hcont2⟩ := interval_i_spec t hrep hp1
      have : j2 = j :=
        containsAt_unique t hrep hcont2 ⟨nd, hnd, by omega, hcase⟩
      subst this
      unfold cell_wise_iter_from
      simp only [hj2, hnd]
    rw [this]
    have : p - nd.cell_i_start + 1 = p + 1 - nd.cell_i_start := by omega
    rw [this]
  · have hend : p + 1 = intervalCellIEnd t.intervals t.capacity j := by omega
    have hyi : p - nd.cell_i_start + 1 =
        t.interval_cell_i_end j - nd.cell_i_start := by
      unfold ContiguousIntervalTree.interval_cell_i_end
      omega
    rw [if_pos hyi]
    rcases Nat.lt_or_ge (p + 1) t.capacity with hp1 | hp1
    · -- the next run exists and starts exactly at p + 1
      cases hx : t.intervals[j + 1]? with
      | none =>
        exfalso
        have : intervalCellIEnd t.intervals t.capacity j = t.capacity := by
          unfold intervalCellIEnd; rw [hx]
        omega
      | some next =>
        have hnext : next.cell_i_start = p + 1 := by
          have : intervalCellIEnd t.intervals t.capacity j = next.cell_i_start := by
            unfold intervalCellIEnd; rw [hx]
          omega
        obtain ⟨j2, hj2, hcont2⟩ := interval_i_spec t hrep hp1
        have : j2 = j + 1 :=
          containsAt_unique t hrep hcont2
            ⟨next, hx, by omega, by have := start_lt_cellEnd t hrep hx; omega⟩
        subst this
        have : cell_wise_iter_from t (p + 1) = ⟨j + 1, 0⟩ := by
          unfold cell_wise_iter_from
          simp only [hj2, hx, hnext]
          simp
        rw [this]
    · -- p + 1 = capacity: the iterator walks off the last run
      have hnone : t.intervals[j + 1]? = none := by
        cases hx : t.intervals[j + 1]? with
        | none => rfl
        | some next =>
          exfalso
          have h3 : intervalCellIEnd t.intervals t.capacity j = next.cell_i_start := by
            unfold intervalCellIEnd; rw [hx]
          have := start_lt_capacity t hrep hx
          omega
      have hjlast : j + 1 = t.intervals.length := by
        have := (List.getElem?_eq_none_iff).mp hnone
        omega
      have : cell_wise_iter_from t (p + 1) = ⟨t.intervals.length, 0⟩ := by
        unfold cell_wise_iter_from
        simp only [interval_i_none_of_ge_cap t hrep (show t.capacity ≤ p + 1 by omega)]
      rw [this, hjlast]

theorem nth_cell_wise_iter_from {T : Type} (t : ContiguousIntervalTree T)
    (hrep : t.check_rep = true) :
    ∀ (n p : Nat), p + n < t.capacity →
      CellWiseIterState.nth t (cell_wise_iter_from t p) n = t.get (p + n)
  | 0, p, h => by
    obtain ⟨v, hv, hnext⟩ := next_cell_wise_iter_from t hrep p (by omega)
    unfold CellWiseIterState.nth
    simp only [hnext]
    rw [show p + 0 = p from rfl, hv]
  | n + 1, p, h => by
    obtain ⟨v, hv, hnext⟩ := next_cell_wise_iter_from t hrep p (by omega)
    unfold CellWiseIterState.nth
    simp only [hnext]
    have hrec := nth_cell_wise_iter_from t hrep n (p + 1) (by omega)
    rw [hrec]
    have : p + 1 + n = p + (n + 1) := by omega
    rw [this]

/-- C7 — refinement_equivalence: for a well-formed tree and any `i < capacity`,
the `i`-th element of the cell-wise iteration (`cell_wise_iter().nth(i)`)
equals `get(i)`. -/
theorem c7_cell_wise_iter_nth_eq_get {T : Type} (t : ContiguousIntervalTree T)
    (hrep : t.check_rep = true) (i : Nat) (hi : i < t.capacity) :
    CellWiseIterState.nth t CellWiseIterState.init i = t.get i := by
  rw [init_eq_cell_wise_iter_from t hrep]
  have := nth_cell_wise_iter_from t hrep i 0 (by omega)
  simpa using this

/-- Witness for C7 on the capacity-16 example tree of the repository's tests. -/
theorem c7_cell_wise_iter_nth_eq_get_witness :
    (ContiguousIntervalTree.check_rep ⟨[⟨0, 0⟩, ⟨3, 1⟩, ⟨4, 2⟩], 16⟩ = true) ∧
      (5 : Nat) < 16 ∧
      CellWiseIterState.nth (⟨[⟨0, 0⟩, ⟨3, 1⟩, ⟨4, 2⟩], 16⟩ : ContiguousIntervalTree Nat)
        CellWiseIterState.init 5 =
      ContiguousIntervalTree.get ⟨[⟨0, 0⟩, ⟨3, 1⟩, ⟨4, 2⟩], 16⟩ 5 :=
  ⟨by decide, by decide,
    c7_cell_wise_iter_nth_eq_get ⟨[⟨0, 0⟩, ⟨3, 1⟩, ⟨4, 2⟩], 16⟩ (by decide) 5 (by decide)⟩

/-! ### Concrete evaluations exhibiting the `set` merge bug -/

/-- C1 — code bug evidence: on the well-formed tree `{0:0, 4:1}` of capacity 8,
`set(3, 1)` hits the `// Merge with the next node` branch, which *increments*
the next run's start (to 5) instead of decrementing it to 3; the subsequent
`get(3)` returns the stale value `0`, not the value `1` that was just set. -/
theorem c1_set_then_get_returns_stale :
    ContiguousIntervalTree.check_rep
        (⟨[⟨0, 0⟩, ⟨4, 1⟩], 8⟩ : ContiguousIntervalTree Nat) = true ∧
      (3 : Nat) < 8 ∧
      (ContiguousIntervalTree.set (⟨[⟨0, 0⟩, ⟨4, 1⟩], 8⟩ : ContiguousIntervalTree Nat)
          3 1).bind (fun t2 => t2.get 3) = some 0 ∧
      (0 : Nat) ≠ 1 := by
  decide

/-- C3 — code bug evidence: on `{0:0, 4:1}` of capacity 8, setting the boundary
cell 3 to the next run's value 1 executes `next.cell_i_start += 1`, producing
`{0:0, 5:1}` — the next run's start moves *up* to 5 instead of *down* to 3, and
cell 4 (inside the next run's old extent) now reads `0` instead of `1`. -/
theorem c3_merge_next_increments_start :
    ContiguousIntervalTree.check_rep
        (⟨[⟨0, 0⟩, ⟨4, 1⟩], 8⟩ : ContiguousIntervalTree Nat) = true ∧
      ContiguousIntervalTree.set (⟨[⟨0, 0⟩, ⟨4, 1⟩], 8⟩ : ContiguousIntervalTree Nat) 3 1 =
        some ⟨[⟨0, 0⟩, ⟨5, 1⟩], 8⟩ ∧
      (ContiguousIntervalTree.set (⟨[⟨0, 0⟩, ⟨4, 1⟩], 8⟩ : ContiguousIntervalTree Nat)
          3 1).bind (fun t2 => t2.get 4) = some 0 := by
  decide

/-- C9 — code bug evidence: the same `set(3, 1)` on `{0:0, 4:1}` changes the
value read at the *untouched* index 4: `get(4)` flips from `1` to `0`. -/
theorem c9_set_changes_other_index :
    ContiguousIntervalTree.get (⟨[⟨0, 0⟩, ⟨4, 1⟩], 8⟩ : ContiguousIntervalTree Nat) 4 =
        some 1 ∧
      (ContiguousIntervalTree.set (⟨[⟨0, 0⟩, ⟨4, 1⟩], 8⟩ : ContiguousIntervalTree Nat)
          3 1).bind (fun t2 => t2.get 4) = some 0 ∧
      (4 : Nat) ≠ 3 := by
  decide

/-- C2 — counterexample to the claim as stated: on the well-formed, maximal tree
`{0:0, 1:1, 2:2}` of capacity 3, `set(1, 2)` rewrites the middle length-1 run in
place without checking the *next* run, leaving `{0:0, 1:2, 2:2}` — two adjacent
runs with equal value 2, so the no-adjacent-equal-values (maximality) invariant
does not survive a single valid `set`. -/
theorem c2_maximality_counterexample :
    ContiguousIntervalTree.check_rep
        (⟨[⟨0, 0⟩, ⟨1, 1⟩, ⟨2, 2⟩], 3⟩ : ContiguousIntervalTree Nat) = true ∧
      noAdjacentEqualValues
        (⟨[⟨0, 0⟩, ⟨1, 1⟩, ⟨2, 2⟩], 3⟩ : ContiguousIntervalTree Nat).intervals = true ∧
      (1 : Nat) < 3 ∧
      ContiguousIntervalTree.set
          (⟨[⟨0, 0⟩, ⟨1, 1⟩, ⟨2, 2⟩], 3⟩ : ContiguousIntervalTree Nat) 1 2 =
        some ⟨[⟨0, 0⟩, ⟨1, 2⟩, ⟨2, 2⟩], 3⟩ ∧
      noAdjacentEqualValues
        [(⟨0, 0⟩ : IntervalNode Nat), ⟨1, 2⟩, ⟨2, 2⟩] = false := by
  decide

/-! ### Index-wise description of `listSplice` -/

theorem listSplice_length {α : Type} (l : List α) (a b : Nat) (xs : List α)
    (hab : a ≤ b) (hbl : b ≤ l.length) :
    (listSplice l a b xs).length = a + xs.length + (l.length - b) := by
  unfold listSplice
  simp only [List.length_append, List.length_take, List.length_drop]
  omega

theorem listSplice_getElem_left {α : Type} (l : List α) (a b : Nat) (xs : List α)
    (j : Nat) (hj : j < a) (ha : a ≤ l.length) :
    (listSplice l a b xs)[j]? = l[j]? := by
  unfold listSplice
  rw [List.getElem?_append_left (by simp only [List.length_append, List.length_take]; omega)]
  rw [List.getElem?_append_left (by simp only [List.length_take]; omega)]
  simp [List.getElem?_take, hj]

theorem listSplice_getElem_mid {α : Type} (l : List α) (a b : Nat) (xs : List α)
    (j : Nat) (ha : a ≤ l.length) (hj1 : a ≤ j) (hj2 : j < a + xs.length) :
    (listSplice l a b xs)[j]? = xs[j - a]? := by
  unfold listSplice
  rw [List.getElem?_append_left (by simp only [List.length_append, List.length_take]; omega)]
  rw [List.getElem?_append_right (by simp only [List.length_take]; omega)]
  congr 1
  simp only [List.length_take]
  omega

theorem listSplice_getElem_right {α : Type} (l : List α) (a b : Nat) (xs : List α)
    (j : Nat) (ha : a ≤ l.length) (hj : a + xs.length ≤ j) :
    (listSplice l a b xs)[j]? = l[b + (j - a - xs.length)]? := by
  unfold listSplice
  rw [List.getElem?_append_right (by simp only [List.length_append, List.length_take]; omega)]
  rw [List.getElem?_drop]
  congr 1
  simp only [List.length_append, List.length_take]
  omega

/-! ### `check_rep` preservation, branch by branch -/


/-- Splitting a run ("Split the current node"): inserting `[{i, v}, {i+1, old}]`
right after run `j` keeps the structural invariants when `i` lies strictly
inside run `j` and is not its last cell. -/
theorem check_rep_split_branch {T : Type} (t : ContiguousIntervalTree T)
    (hrep : t.check_rep = true) (j i : Nat) (nd : IntervalNode T) (v : T)
    (hnd : t.intervals[j]? = some nd)
    (h1 : nd.cell_i_start ≤ i) (h2 : i < intervalCellIEnd t.intervals t.capacity j)
    (hstart : nd.cell_i_start ≠ i)
    (hnotlast : i ≠ intervalCellIEnd t.intervals t.capacity j - 1) :
    ContiguousIntervalTree.check_rep
      (⟨listSplice t.intervals (j + 1) (j + 1) [⟨i, v⟩, ⟨i + 1, nd.value⟩], t.capacity⟩ :
        ContiguousIntervalTree T) = true := by
  have hjlen : j < t.intervals.length := (List.getElem?_eq_some_iff.mp hnd).1
  obtain ⟨⟨first, hf, hf0⟩, hadj, ⟨last, hl, hlc⟩⟩ := (check_rep_iff t).1 hrep
  have hend : i + 1 < intervalCellIEnd t.intervals t.capacity j := by
    have := start_lt_cellEnd t hrep hnd
    omega
  have hlen : (listSplice t.intervals (j + 1) (j + 1)
      [(⟨i, v⟩ : IntervalNode T), ⟨i + 1, nd.value⟩]).length = t.intervals.length + 2 := by
    rw [listSplice_length _ _ _ _ (le_refl _) (by omega)]
    simp only [List.length_cons, List.length_nil]
    omega
  rw [check_rep_iff]
  refine ⟨⟨first, ?_, hf0⟩, ?_, ?_⟩
  · rw [listSplice_getElem_left _ _ _ _ 0 (by omega) (by omega)]
    exact hf
  · rw [strictAdjStarts_iff]
    intro q x y hx hy
    rcases Nat.lt_or_ge (q + 1) (j + 1) with hq | hq
    · rw [listSplice_getElem_left _ _ _ _ q (by omega) (by omega)] at hx
      rw [listSplice_getElem_left _ _ _ _ (q + 1) (by omega) (by omega)] at hy
      exact (strictAdjStarts_iff _).1 hadj q x y hx hy
    · rcases Nat.lt_or_ge q (j + 1) with hq2 | hq2
      · -- q = j: old run j followed by the fresh node {i, v}
        have hqj : q = j := by omega
        rw [listSplice_getElem_left _ _ _ _ q (by omega) (by omega), hqj, hnd] at hx
        injection hx with hx
        rw [listSplice_getElem_mid _ _ _ _ (q + 1) (by omega) (by omega)
          (by simp only [List.length_cons, List.length_nil]; omega)] at hy
        have e1 : q + 1 - (j + 1) = 0 := by omega
        rw [e1] at hy
        simp only [List.getElem?_cons_zero, Option.some.injEq] at hy
        rw [← hx, ← hy]
        show nd.cell_i_start < i
        omega
      · rcases Nat.lt_or_ge q (j + 2) with hq4 | hq4
        · -- q = j + 1: the two fresh nodes
          rw [listSplice_getElem_mid _ _ _ _ q (by omega) (by omega)
            (by simp only [List.length_cons, List.length_nil]; omega)] at hx
          have e1 : q - (j + 1) = 0 := by omega
          rw [e1] at hx
          simp only [List.getElem?_cons_zero, Option.some.injEq] at hx
          rw [listSplice_getElem_mid _ _ _ _ (q + 1) (by omega) (by omega)
            (by simp only [List.length_cons, List.length_nil]; omega)] at hy
          have e2 : q + 1 - (j + 1) = 1 := by omega
          rw [e2] at hy
          simp only [List.getElem?_cons_succ, List.getElem?_cons_zero,
            Option.some.injEq] at hy
          rw [← hx, ← hy]
          show i < i + 1
          omega
        · rcases Nat.lt_or_ge q (j + 3) with hq5 | hq5
          · -- q = j + 2: the node {i+1, old} followed by the old run j+1
            rw [listSplice_getElem_mid _ _ _ _ q (by omega) (by omega)
              (by simp only [List.length_cons, List.length_nil]; omega)] at hx
            have e1 : q - (j + 1) = 1 := by omega
            rw [e1] at hx
            simp only [List.getElem?_cons_succ, List.getElem?_cons_zero,
              Option.some.injEq] at hx
            rw [listSplice_getElem_right _ _ _ _ (q + 1) (by omega)
              (by simp only [List.length_cons, List.length_nil]; omega)] at hy
            simp only [List.length_cons, List.length_nil] at hy
            have e2 : j + 1 + (q + 1 - (j + 1) - 2) = j + 1 := by omega
            rw [e2] at hy
            have hyend : intervalCellIEnd t.intervals t.capacity j = y.cell_i_start := by
              unfold intervalCellIEnd
              rw [hy]
            rw [← hx]
            show i + 1 < y.cell_i_start
            omega
          · -- both in the shifted suffix
            rw [listSplice_getElem_right _ _ _ _ q (by omega)
              (by simp only [List.length_cons, List.length_nil]; omega)] at hx
            rw [listSplice_getElem_right _ _ _ _ (q + 1) (by omega)
              (by simp only [List.length_cons, List.length_nil]; omega)] at hy
            simp only [List.length_cons, List.length_nil] at hx hy
            have e1 : j + 1 + (q - (j + 1) - 2) = q - 2 := by omega
            have e2 : j + 1 + (q + 1 - (j + 1) - 2) = (q - 2) + 1 := by omega
            rw [e1] at hx
            rw [e2] at hy
            exact (strictAdjStarts_iff _).1 hadj (q - 2) x y hx hy
  · rw [hlen]
    rcases Nat.lt_or_ge (j + 1) t.intervals.length with hcase | hcase
    · -- the last run is unchanged (shifted by two)
      refine ⟨last, ?_, hlc⟩
      rw [listSplice_getElem_right _ _ _ _ (t.intervals.length + 2 - 1)
        (by omega) (by simp only [List.length_cons, List.length_nil]; omega)]
      simp only [List.length_cons, List.length_nil]
      have e1 : j + 1 + (t.intervals.length + 2 - 1 - (j + 1) - 2) =
          t.intervals.length - 1 := by omega
      rw [e1]
      exact hl
    · -- run j was the last run: the new last node is {i+1, old}
      have hnone : t.intervals[j + 1]? = none := List.getElem?_eq_none_iff.mpr (by omega)
      have hendcap : intervalCellIEnd t.intervals t.capacity j = t.capacity := by
        unfold intervalCellIEnd
        rw [hnone]
      refine ⟨⟨i + 1, nd.value⟩, ?_, by show i + 1 < t.capacity; omega⟩
      rw [listSplice_getElem_mid _ _ _ _ (t.intervals.length + 2 - 1)
        (by omega) (by omega) (by simp only [List.length_cons, List.length_nil]; omega)]
      have e1 : t.intervals.length + 2 - 1 - (j + 1) = 1 := by omega
      rw [e1]
      simp

/-- "Append to the current node": inserting the single node `{i, v}` right
after run `j` keeps the structural invariants when `i` is run `j`'s last cell
and not its first. -/
theorem check_rep_append_branch {T : Type} (t : ContiguousIntervalTree T)
    (hrep : t.check_rep = true) (j i : Nat) (nd : IntervalNode T) (v : T)
    (hnd : t.intervals[j]? = some nd)
    (h1 : nd.cell_i_start ≤ i) (h2 : i < intervalCellIEnd t.intervals t.capacity j)
    (hstart : nd.cell_i_start ≠ i) :
    ContiguousIntervalTree.check_rep
      (⟨listSplice t.intervals (j + 1) (j + 1) [⟨i, v⟩], t.capacity⟩ :
        ContiguousIntervalTree T) = true := by
  have hjlen : j < t.intervals.length := (List.getElem?_eq_some_iff.mp hnd).1
  obtain ⟨⟨first, hf, hf0⟩, hadj, ⟨last, hl, hlc⟩⟩ := (check_rep_iff t).1 hrep
  have hicap : i < t.capacity := lt_of_lt_of_le h2 (cellEnd_le_capacity t hrep j)
  have hlen : (listSplice t.intervals (j + 1) (j + 1)
      [(⟨i, v⟩ : IntervalNode T)]).length = t.intervals.length + 1 := by
    rw [listSplice_length _ _ _ _ (le_refl _) (by omega)]
    simp only [List.length_cons, List.length_nil]
    omega
  rw [check_rep_iff]
  refine ⟨⟨first, ?_, hf0⟩, ?_, ?_⟩
  · rw [listSplice_getElem_left _ _ _ _ 0 (by omega) (by omega)]
    exact hf
  · rw [strictAdjStarts_iff]
    intro q x y hx hy
    rcases Nat.lt_or_ge (q + 1) (j + 1) with hq | hq
    · rw [listSplice_getElem_left _ _ _ _ q (by omega) (by omega)] at hx
      rw [listSplice_getElem_left _ _ _ _ (q + 1) (by omega) (by omega)] at hy
      exact (strictAdjStarts_iff _).1 hadj q x y hx hy
    · rcases Nat.lt_or_ge q (j + 1) with hq2 | hq2
      · -- q = j: run j followed by the fresh node {i, v}
        have hqj : q = j := by omega
        rw [listSplice_getElem_left _ _ _ _ q (by omega) (by omega), hqj, hnd] at hx
        injection hx with hx
        rw [listSplice_getElem_mid _ _ _ _ (q + 1) (by omega) (by omega)
          (by simp only [List.length_cons, List.length_nil]; omega)] at hy
        have e1 : q + 1 - (j + 1) = 0 := by omega
        rw [e1] at hy
        simp only [List.getElem?_cons_zero, Option.some.injEq] at hy
        rw [← hx, ← hy]
        show nd.cell_i_start < i
        omega
      · rcases Nat.lt_or_ge q (j + 2) with hq4 | hq4
        · -- q = j + 1: the fresh node followed by the old run j + 1
          rw [listSplice_getElem_mid _ _ _ _ q (by omega) (by omega)
            (by simp only [List.length_cons, List.length_nil]; omega)] at hx
          have e1 : q - (j + 1) = 0 := by omega
          rw [e1] at hx
          simp only [List.getElem?_cons_zero, Option.some.injEq] at hx
          rw [listSplice_getElem_right _ _ _ _ (q + 1) (by omega)
            (by simp only [List.length_cons, List.length_nil]; omega)] at hy
          simp only [List.length_cons, List.length_nil] at hy
          have e2 : j + 1 + (q + 1 - (j + 1) - 1) = j + 1 := by omega
          rw [e2] at hy
          have hyend : intervalCellIEnd t.intervals t.capacity j = y.cell_i_start := by
            unfold intervalCellIEnd
            rw [hy]
          rw [← hx]
          show i < y.cell_i_start
          omega
        · -- both in the shifted suffix
          rw [listSplice_getElem_right _ _ _ _ q (by omega)
            (by simp only [List.length_cons, List.length_nil]; omega)] at hx
          rw [listSplice_getElem_right _ _ _ _ (q + 1) (by omega)
            (by simp only [List.length_cons, List.length_nil]; omega)] at hy
          simp only [List.length_cons, List.length_nil] at hx hy
          have e1 : j + 1 + (q - (j + 1) - 1) = q - 1 := by omega
          have e2 : j + 1 + (q + 1 - (j + 1) - 1) = (q - 1) + 1 := by omega
          rw [e1] at hx
          rw [e2] at hy
          exact (strictAdjStarts_iff _).1 hadj (q - 1) x y hx hy
  · rw [hlen]
    rcases Nat.lt_or_ge (j + 1) t.intervals.length with hcase | hcase
    · refine ⟨last, ?_, hlc⟩
      rw [listSplice_getElem_right _ _ _ _ (t.intervals.length + 1 - 1)
        (by omega) (by simp only [List.length_cons, List.length_nil]; omega)]
      simp only [List.length_cons, List.length_nil]
      have e1 : j + 1 + (t.intervals.length + 1 - 1 - (j + 1) - 1) =
          t.intervals.length - 1 := by omega
      rw [e1]
      exact hl
    · refine ⟨⟨i, v⟩, ?_, by show i < t.capacity; omega⟩
      rw [listSplice_getElem_mid _ _ _ _ (t.intervals.length + 1 - 1)
        (by omega) (by omega) (by simp only [List.length_cons, List.length_nil]; omega)]
      have e1 : t.intervals.length + 1 - 1 - (j + 1) = 0 := by omega
      rw [e1]
      simp

/-- "Remove the current node": deleting the length-1 run `j` (merging it into
the previous run) keeps the structural invariants when `j ≥ 1`. -/
theorem check_rep_remove_branch {T : Type} (t : ContiguousIntervalTree T)
    (hrep : t.check_rep = true) (j : Nat) (nd : IntervalNode T)
    (hnd : t.intervals[j]? = some nd) (hj1 : 1 ≤ j) :
    ContiguousIntervalTree.check_rep
      (⟨listSplice t.intervals j (j + 1) [], t.capacity⟩ :
        ContiguousIntervalTree T) = true := by
  have hjlen : j < t.intervals.length := (List.getElem?_eq_some_iff.mp hnd).1
  obtain ⟨⟨first, hf, hf0⟩, hadj, ⟨last, hl, hlc⟩⟩ := (check_rep_iff t).1 hrep
  have hlen : (listSplice t.intervals j (j + 1) ([] : List (IntervalNode T))).length =
      t.intervals.length - 1 := by
    rw [listSplice_length _ _ _ _ (by omega) (by omega)]
    simp only [List.length_nil]
    omega
  have hright : ∀ q, j ≤ q →
      (listSplice t.intervals j (j + 1) ([] : List (IntervalNode T)))[q]? =
        t.intervals[q + 1]? := by
    intro q hq
    rw [listSplice_getElem_right _ _ _ _ q (by omega)
      (by simp only [List.length_nil]; omega)]
    simp only [List.length_nil]
    congr 1
    omega
  rw [check_rep_iff]
  refine ⟨⟨first, ?_, hf0⟩, ?_, ?_⟩
  · rw [listSplice_getElem_left _ _ _ _ 0 (by omega) (by omega)]
    exact hf
  · rw [strictAdjStarts_iff]
    intro q x y hx hy
    rcases Nat.lt_or_ge (q + 1) j with hq | hq
    · rw [listSplice_getElem_left _ _ _ _ q (by omega) (by omega)] at hx
      rw [listSplice_getElem_left _ _ _ _ (q + 1) (by omega) (by omega)] at hy
      exact (strictAdjStarts_iff _).1 hadj q x y hx hy
    · rcases Nat.lt_or_ge q j with hq2 | hq2
      · -- q = j - 1: the run before the removed one, followed by the one after it
        rw [listSplice_getElem_left _ _ _ _ q (by omega) (by omega)] at hx
        rw [hright (q + 1) (by omega)] at hy
        exact sortedStarts_of_adj t.intervals hadj q (q + 1 + 1) x y (by omega) hx hy
      · rw [hright q (by omega)] at hx
        rw [hright (q + 1) (by omega)] at hy
        exact (strictAdjStarts_iff _).1 hadj (q + 1) x y hx hy
  · rw [hlen]
    rcases Nat.lt_or_ge j (t.intervals.length - 1) with hcase | hcase
    · refine ⟨last, ?_, hlc⟩
      rw [hright (t.intervals.length - 1 - 1) (by omega)]
      have e1 : t.intervals.length - 1 - 1 + 1 = t.intervals.length - 1 := by omega
      rw [e1]
      exact hl
    · -- the removed run was the last one; its predecessor becomes the last run
      have hx : t.intervals[t.intervals.length - 1 - 1]? =
          some t.intervals[t.intervals.length - 1 - 1] :=
        List.getElem?_eq_getElem (by omega)
      refine ⟨t.intervals[t.intervals.length - 1 - 1], ?_, ?_⟩
      · rw [listSplice_getElem_left _ _ _ _ (t.intervals.length - 1 - 1)
          (by omega) (by omega)]
        exact hx
      · exact lt_trans (sortedStarts_of_adj t.intervals hadj _ _ _ _
          (by omega) hx hl) hlc

/-- "Shrink the current node to the right" and merge its first cell into the
previous run: replacing run `j`'s start by `start + 1` keeps the structural
invariants when run `j` spans more than one cell and `j ≥ 1`. -/
theorem check_rep_shrink_branch {T : Type} (t : ContiguousIntervalTree T)
    (hrep : t.check_rep = true) (j : Nat) (nd : IntervalNode T)
    (hnd : t.intervals[j]? = some nd) (hj1 : 1 ≤ j)
    (honly : intervalCellIEnd t.intervals t.capacity j - nd.cell_i_start ≠ 1) :
    ContiguousIntervalTree.check_rep
      (⟨t.intervals.set j ⟨nd.cell_i_start + 1, nd.value⟩, t.capacity⟩ :
        ContiguousIntervalTree T) = true := by
  have hjlen : j < t.intervals.length := (List.getElem?_eq_some_iff.mp hnd).1
  obtain ⟨⟨first, hf, hf0⟩, hadj, ⟨last, hl, hlc⟩⟩ := (check_rep_iff t).1 hrep
  have hend : nd.cell_i_start + 2 ≤ intervalCellIEnd t.intervals t.capacity j := by
    have := start_lt_cellEnd t hrep hnd
    omega
  have hset : (t.intervals.set j ⟨nd.cell_i_start + 1, nd.value⟩)[j]? =
      some ⟨nd.cell_i_start + 1, nd.value⟩ := by
    simp [List.getElem?_set, hjlen]
  rw [check_rep_iff]
  refine ⟨⟨first, ?_, hf0⟩, ?_, ?_⟩
  · rw [List.getElem?_set_ne (by omega)]
    exact hf
  · rw [strictAdjStarts_iff]
    intro q x y hx hy
    rcases Nat.lt_or_ge (q + 1) j with hq | hq
    · rw [List.getElem?_set_ne (by omega)] at hx
      rw [List.getElem?_set_ne (by omega)] at hy
      exact (strictAdjStarts_iff _).1 hadj q x y hx hy
    · rcases Nat.lt_or_ge q j with hq2 | hq2
      · -- q = j - 1
        rw [List.getElem?_set_ne (by omega)] at hx
        rw [show q + 1 = j by omega, hset] at hy
        injection hy with hy
        have hadj2 := (strictAdjStarts_iff _).1 hadj q x nd hx
          (by rw [show q + 1 = j by omega]; exact hnd)
        rw [← hy]
        show x.cell_i_start < nd.cell_i_start + 1
        omega
      · rcases Nat.lt_or_ge j q with hq3 | hq3
        · rw [List.getElem?_set_ne (by omega)] at hx
          rw [List.getElem?_set_ne (by omega)] at hy
          exact (strictAdjStarts_iff _).1 hadj q x y hx hy
        · -- q = j
          have hqj : q = j := by omega
          rw [hqj, hset] at hx
          injection hx with hx
          rw [show q + 1 = j + 1 by omega, List.getElem?_set_ne (by omega)] at hy
          have hyend : intervalCellIEnd t.intervals t.capacity j = y.cell_i_start := by
            unfold intervalCellIEnd
            rw [hy]
          rw [← hx]
          show nd.cell_i_start + 1 < y.cell_i_start
          omega
  · simp only [List.length_set]
    rcases Nat.lt_or_ge j (t.intervals.length - 1) with hcase | hcase
    · refine ⟨last, ?_, hlc⟩
      rw [List.getElem?_set_ne (by omega)]
      exact hl
    · -- run j is the last run
      have hqj : j = t.intervals.length - 1 := by omega
      have hnone : t.intervals[j + 1]? = none := List.getElem?_eq_none_iff.mpr (by omega)
      have hendcap : intervalCellIEnd t.intervals t.capacity j = t.capacity := by
        unfold intervalCellIEnd
        rw [hnone]
      refine ⟨⟨nd.cell_i_start + 1, nd.value⟩, ?_, ?_⟩
      · rw [← hqj]
        exact hset
      · show nd.cell_i_start + 1 < t.capacity
        omega

/-- Replacing the length-1 run `j` in place by `{i, v}` (where `i` is its own
start) keeps the structural invariants. -/
theorem check_rep_replace_branch {T : Type} (t : ContiguousIntervalTree T)
    (hrep : t.check_rep = true) (j i : Nat) (nd : IntervalNode T) (v : T)
    (hnd : t.intervals[j]? = some nd) (heq : nd.cell_i_start = i) :
    ContiguousIntervalTree.check_rep
      (⟨listSplice t.intervals j (j + 1) [⟨i, v⟩], t.capacity⟩ :
        ContiguousIntervalTree T) = true := by
  have hjlen : j < t.intervals.length := (List.getElem?_eq_some_iff.mp hnd).1
  obtain ⟨⟨first, hf, hf0⟩, hadj, ⟨last, hl, hlc⟩⟩ := (check_rep_iff t).1 hrep
  have hlen : (listSplice t.intervals j (j + 1) [(⟨i, v⟩ : IntervalNode T)]).length =
      t.intervals.length := by
    rw [listSplice_length _ _ _ _ (by omega) (by omega)]
    simp only [List.length_cons, List.length_nil]
    omega
  have hmid : (listSplice t.intervals j (j + 1) [(⟨i, v⟩ : IntervalNode T)])[j]? =
      some ⟨i, v⟩ := by
    rw [listSplice_getElem_mid _ _ _ _ j (by omega) (by omega)
      (by simp only [List.length_cons, List.length_nil]; omega)]
    simp
  have hright : ∀ q, j + 1 ≤ q →
      (listSplice t.intervals j (j + 1) [(⟨i, v⟩ : IntervalNode T)])[q]? =
        t.intervals[q]? := by
    intro q hq
    rw [listSplice_getElem_right _ _ _ _ q (by omega)
      (by simp only [List.length_cons, List.length_nil]; omega)]
    simp only [List.length_cons, List.length_nil]
    congr 1
    omega
  rw [check_rep_iff]
  refine ⟨?_, ?_, ?_⟩
  · rcases Nat.eq_zero_or_pos j with hj0 | hj0
    · subst hj0
      refine ⟨⟨i, v⟩, hmid, ?_⟩
      rw [hnd] at hf
      injection hf with hf
      rw [← hf] at hf0
      show i = 0
      omega
    · refine ⟨first, ?_, hf0⟩
      rw [listSplice_getElem_left _ _ _ _ 0 (by omega) (by omega)]
      exact hf
  · rw [strictAdjStarts_iff]
    intro q x y hx hy
    rcases Nat.lt_or_ge (q + 1) j with hq | hq
    · rw [listSplice_getElem_left _ _ _ _ q (by omega) (by omega)] at hx
      rw [listSplice_getElem_left _ _ _ _ (q + 1) (by omega) (by omega)] at hy
      exact (strictAdjStarts_iff _).1 hadj q x y hx hy
    · rcases Nat.lt_or_ge q j with hq2 | hq2
      · -- q = j - 1
        rw [listSplice_getElem_left _ _ _ _ q (by omega) (by omega)] at hx
        rw [show q + 1 = j by omega, hmid] at hy
        injection hy with hy
        have hadj2 := (strictAdjStarts_iff _).1 hadj q x nd hx
          (by rw [show q + 1 = j by omega]; exact hnd)
        rw [← hy]
        show x.cell_i_start < i
        omega
      · rcases Nat.lt_or_ge j q with hq3 | hq3
        · rw [hright q (by omega)] at hx
          rw [hright (q + 1) (by omega)] at hy
          exact (strictAdjStarts_iff _).1 hadj q x y hx hy
        · -- q = j
          have hqj : q = j := by omega
          rw [hqj, hmid] at hx
          injection hx with hx
          rw [hright (q + 1) (by omega), hqj] at hy
          have hyend : intervalCellIEnd t.intervals t.capacity j = y.cell_i_start := by
            unfold intervalCellIEnd
            rw [hy]
          have := start_lt_cellEnd t hrep hnd
          rw [← hx]
          show i < y.cell_i_start
          omega
  · rw [hlen]
    rcases Nat.lt_or_ge j (t.intervals.length - 1) with hcase | hcase
    · refine ⟨last, ?_, hlc⟩
      rw [hright (t.intervals.length - 1) (by omega)]
      exact hl
    · have hqj : j = t.intervals.length - 1 := by omega
      refine ⟨⟨i, v⟩, ?_, ?_⟩
      · rw [← hqj]
        exact hmid
      · rw [← hqj] at hl
        rw [hnd] at hl
        injection hl with hl
        rw [← hl] at hlc
        show i < t.capacity
        omega

/-- "Shrink the current node to the right" then "Prepend to the current node":
shrinking run `j` to start at `start + 1` and inserting `{i, v}` (with
`i = start`) before it keeps the structural invariants when run `j` spans more
than one cell. -/
theorem check_rep_prepend_branch {T : Type} (t : ContiguousIntervalTree T)
    (hrep : t.check_rep = true) (j i : Nat) (nd : IntervalNode T) (v : T)
    (hnd : t.intervals[j]? = some nd) (heq : nd.cell_i_start = i)
    (honly : intervalCellIEnd t.intervals t.capacity j - nd.cell_i_start ≠ 1) :
    ContiguousIntervalTree.check_rep
      (⟨listSplice (t.intervals.set j ⟨nd.cell_i_start + 1, nd.value⟩) j j [⟨i, v⟩],
        t.capacity⟩ : ContiguousIntervalTree T) = true := by
  have hjlen : j < t.intervals.length := (List.getElem?_eq_some_iff.mp hnd).1
  obtain ⟨⟨first, hf, hf0⟩, hadj, ⟨last, hl, hlc⟩⟩ := (check_rep_iff t).1 hrep
  have hend : nd.cell_i_start + 2 ≤ intervalCellIEnd t.intervals t.capacity j := by
    have := start_lt_cellEnd t hrep hnd
    omega
  have hlen2 : (t.intervals.set j ⟨nd.cell_i_start + 1, nd.value⟩).length =
      t.intervals.length := by
    simp
  have hlen : (listSplice (t.intervals.set j ⟨nd.cell_i_start + 1, nd.value⟩) j j
      [(⟨i, v⟩ : IntervalNode T)]).length = t.intervals.length + 1 := by
    rw [listSplice_length _ _ _ _ (by omega) (by omega)]
    simp only [List.length_cons, List.length_nil, List.length_set]
    omega
  have hmid : (listSplice (t.intervals.set j ⟨nd.cell_i_start + 1, nd.value⟩) j j
      [(⟨i, v⟩ : IntervalNode T)])[j]? = some ⟨i, v⟩ := by
    rw [listSplice_getElem_mid _ _ _ _ j (by omega) (by omega)
      (by simp only [List.length_cons, List.length_nil]; omega)]
    simp
  have hleft : ∀ q, q < j →
      (listSplice (t.intervals.set j ⟨nd.cell_i_start + 1, nd.value⟩) j j
        [(⟨i, v⟩ : IntervalNode T)])[q]? = t.intervals[q]? := by
    intro q hq
    rw [listSplice_getElem_left _ _ _ _ q (by omega) (by omega)]
    rw [List.getElem?_set_ne (by omega)]
  have hright : ∀ q, j + 1 ≤ q →
      (listSplice (t.intervals.set j ⟨nd.cell_i_start + 1, nd.value⟩) j j
        [(⟨i, v⟩ : IntervalNode T)])[q]? =
        (t.intervals.set j ⟨nd.cell_i_start + 1, nd.value⟩)[q - 1]? := by
    intro q hq
    rw [listSplice_getElem_right _ _ _ _ q (by omega)
      (by simp only [List.length_cons, List.length_nil]; omega)]
    simp only [List.length_cons, List.length_nil]
    congr 1
    omega
  have hsetj : (t.intervals.set j ⟨nd.cell_i_start + 1, nd.value⟩)[j]? =
      some ⟨nd.cell_i_start + 1, nd.value⟩ := by
    simp [List.getElem?_set, hjlen]
  rw [check_rep_iff]
  refine ⟨?_, ?_, ?_⟩
  · rcases Nat.eq_zero_or_pos j with hj0 | hj0
    · subst hj0
      refine ⟨⟨i, v⟩, hmid, ?_⟩
      rw [hnd] at hf
      injection hf with hf
      rw [← hf] at hf0
      show i = 0
      omega
    · refine ⟨first, ?_, hf0⟩
      rw [hleft 0 (by omega)]
      exact hf
  · rw [strictAdjStarts_iff]
    intro q x y hx hy
    rcases Nat.lt_or_ge (q + 1) j with hq | hq
    · rw [hleft q (by omega)] at hx
      rw [hleft (q + 1) (by omega)] at hy
      exact (strictAdjStarts_iff _).1 hadj q x y hx hy
    · rcases Nat.lt_or_ge q j with hq2 | hq2
      · -- q = j - 1
        rw [hleft q (by omega)] at hx
        rw [show q + 1 = j by omega, hmid] at hy
        injection hy with hy
        have hadj2 := (strictAdjStarts_iff _).1 hadj q x nd hx
          (by rw [show q + 1 = j by omega]; exact hnd)
        rw [← hy]
        show x.cell_i_start < i
        omega
      · rcases Nat.lt_or_ge j q with hq3 | hq3
        · rcases Nat.lt_or_ge (j + 1) q with hq4 | hq4
          · -- q ≥ j + 2: untouched suffix
            rw [hright q (by omega), List.getElem?_set_ne (by omega)] at hx
            rw [hright (q + 1) (by omega), List.getElem?_set_ne (by omega)] at hy
            have e2 : q + 1 - 1 = (q - 1) + 1 := by omega
            rw [e2] at hy
            exact (strictAdjStarts_iff _).1 hadj (q - 1) x y hx hy
          · -- q = j + 1: the shrunk run followed by the old run j + 1
            have hqj : q = j + 1 := by omega
            rw [hright q (by omega), show q - 1 = j by omega, hsetj] at hx
            injection hx with hx
            rw [hright (q + 1) (by omega), show q + 1 - 1 = j + 1 by omega,
              List.getElem?_set_ne (by omega)] at hy
            have hyend : intervalCellIEnd t.intervals t.capacity j = y.cell_i_start := by
              unfold intervalCellIEnd
              rw [hy]
            rw [← hx]
            show nd.cell_i_start + 1 < y.cell_i_start
            omega
        · -- q = j: the new node followed by the shrunk run
          have hqj : q = j := by omega
          rw [hqj, hmid] at hx
          injection hx with hx
          rw [hright (q + 1) (by omega), show q + 1 - 1 = q by omega, hqj, hsetj] at hy
          injection hy with hy
          rw [← hx, ← hy]
          show i < nd.cell_i_start + 1
          omega
  · rw [hlen]
    have e0 : t.intervals.length + 1 - 1 = t.intervals.length := by omega
    rw [e0]
    rcases Nat.lt_or_ge j (t.intervals.length - 1) with hcase | hcase
    · refine ⟨last, ?_, hlc⟩
      rw [hright t.intervals.length (by omega), List.getElem?_set_ne (by omega)]
      exact hl
    · have hqj : j = t.intervals.length - 1 := by omega
      have hnone : t.intervals[j + 1]? = none := List.getElem?_eq_none_iff.mpr (by omega)
      have hendcap : intervalCellIEnd t.intervals t.capacity j = t.capacity := by
        unfold intervalCellIEnd
        rw [hnone]
      refine ⟨⟨nd.cell_i_start + 1, nd.value⟩, ?_, ?_⟩
      · rw [hright t.intervals.length (by omega), show t.intervals.length - 1 = j by omega,
          hsetj]
      · show nd.cell_i_start + 1 < t.capacity
        omega

/-- C2 (amended) — invariants: after a single `set(i, v)` with `i < capacity` on
a tree satisfying the construction invariants, *provided the call does not take
the merge-with-next branch* (`mergeNextTaken`), the run list still satisfies the
`check_rep` invariants: first start `= 0`, strictly increasing starts, last
start `< capacity`.  (Maximality — no adjacent equal values — is not preserved;
see `c2_maximality_counterexample`.) -/
theorem c2_set_preserves_structural_invariants {T : Type} [DecidableEq T]
    (t : ContiguousIntervalTree T) (i : Nat) (v : T)
    (hrep : t.check_rep = true) (hi : i < t.capacity)
    (hnm : mergeNextTaken t i v = false)
    (t2 : ContiguousIntervalTree T) (hset : t.set i v = some t2) :
    t2.check_rep = true := by
  obtain ⟨j, nd, hj, hnd, h1, h2, -⟩ := get_spec t hrep hi
  unfold ContiguousIntervalTree.set at hset
  simp only [hj, hnd] at hset
  unfold ContiguousIntervalTree.interval_cell_i_end at hset
  by_cases hv : nd.value = v
  · rw [if_pos hv] at hset
    injection hset with hset
    rw [← hset]
    exact hrep
  · rw [if_neg hv] at hset
    by_cases hstart : nd.cell_i_start = i
    · rw [if_pos hstart] at hset
      by_cases hsm : shouldMergePrev t j v = true
      · rw [if_pos hsm] at hset
        have hj1 : 1 ≤ j := by
          rcases j with _ | k
          · simp [shouldMergePrev] at hsm
          · omega
        by_cases honly : intervalCellIEnd t.intervals t.capacity j - nd.cell_i_start = 1
        · rw [if_pos honly] at hset
          injection hset with hset
          rw [← hset]
          exact check_rep_remove_branch t hrep j nd hnd hj1
        · simp only [if_neg honly] at hset
          injection hset with hset
          rw [← hset]
          exact check_rep_shrink_branch t hrep j nd hnd hj1 honly
      · rw [if_neg hsm] at hset
        by_cases honly : intervalCellIEnd t.intervals t.capacity j - nd.cell_i_start = 1
        · simp only [if_pos honly] at hset
          injection hset with hset
          rw [← hset]
          exact check_rep_replace_branch t hrep j i nd v hnd hstart
        · simp only [if_neg honly] at hset
          injection hset with hset
          rw [← hset]
          exact check_rep_prepend_branch t hrep j i nd v hnd hstart honly
    · rw [if_neg hstart] at hset
      by_cases hlast : i = intervalCellIEnd t.intervals t.capacity j - 1
      · rw [if_pos hlast] at hset
        cases hnext : t.intervals[j + 1]? with
        | none =>
          simp only [hnext] at hset
          injection hset with hset
          rw [← hset]
          exact check_rep_append_branch t hrep j i nd v hnd h1 h2 hstart
        | some next =>
          simp only [hnext] at hset
          by_cases hnv : next.value = v
          · exfalso
            unfold mergeNextTaken at hnm
            simp only [hj, hnd, hnext] at hnm
            unfold ContiguousIntervalTree.interval_cell_i_end at hnm
            simp [hv, hstart, hlast, hnv] at hnm
            omega
          · rw [if_neg hnv] at hset
            injection hset with hset
            rw [← hset]
            exact check_rep_append_branch t hrep j i nd v hnd h1 h2 hstart
      · rw [if_neg hlast] at hset
        injection hset with hset
        rw [← hset]
        exact check_rep_split_branch t hrep j i nd v hnd h1 h2 hstart hlast

/-- Witness for C2 (amended), on the test tree `{0:0, 3:1, 4:2}` of capacity 16
with the interior write `set(5, 5)`. -/
theorem c2_set_preserves_structural_invariants_witness :
    ContiguousIntervalTree.check_rep
        (⟨[⟨0, 0⟩, ⟨3, 1⟩, ⟨4, 2⟩], 16⟩ : ContiguousIntervalTree Nat) = true ∧
      (5 : Nat) < 16 ∧
      mergeNextTaken (⟨[⟨0, 0⟩, ⟨3, 1⟩, ⟨4, 2⟩], 16⟩ : ContiguousIntervalTree Nat)
        5 5 = false ∧
      ContiguousIntervalTree.check_rep
        (⟨[⟨0, 0⟩, ⟨3, 1⟩, ⟨4, 2⟩, ⟨5, 5⟩, ⟨6, 2⟩], 16⟩ : ContiguousIntervalTree Nat) =
        true :=
  ⟨by decide, by decide, by decide,
    c2_set_preserves_structural_invariants ⟨[⟨0, 0⟩, ⟨3, 1⟩, ⟨4, 2⟩], 16⟩ 5 5
      (by decide) (by decide) (by decide)
      ⟨[⟨0, 0⟩, ⟨3, 1⟩, ⟨4, 2⟩, ⟨5, 5⟩, ⟨6, 2⟩], 16⟩ (by decide)⟩

/-! ### chunk.rs: coordinate linearization and the index iterator -/

/-- `Index = [IndexPart; 3]` with `IndexPart = u64` (chunk.rs lines 5–6),
modelled as a triple of naturals in axis order `(0, 1, 2)`.  No arithmetic in
the embedded code can reach `2^64` starting from in-range values, so `Nat`
mirrors `u64` faithfully here. -/
abbrev Index : Type := Nat × Nat × Nat

/-- `CHUNK_SIZE` (chunk.rs line 8): `[2 << 4, 2 << 4, 2 << 4]`. -/
def CHUNK_SIZE : List Nat := [2 <<< 4, 2 <<< 4, 2 <<< 4]

/-- The three components of a voxel index in array order, as zipped against
`CHUNK_SIZE` by the source's loops. -/
def axesOf (v : Index) : List Nat := [v.1, v.2.1, v.2.2]

/-- `VoxelIndex::chunk_index` (chunk.rs lines 32–43): componentwise integer
division by the per-axis chunk size. -/
def chunk_index (v : Index) : Index :=
  (v.1 / (2 <<< 4), v.2.1 / (2 <<< 4), v.2.2 / (2 <<< 4))

/-- `VoxelIndex::interval_tree_index` (chunk.rs lines 44–53): the loop
`index += (x % n) * mag; mag *= n` over the axes zipped with `CHUNK_SIZE`,
starting from `index = 0`, `mag = 1`. -/
def interval_tree_index (v : Index) : Nat :=
  (((axesOf v).zip CHUNK_SIZE).foldl
    (fun im xn => (im.1 + (xn.1 % xn.2) * im.2, im.2 * xn.2)) ((0 : Nat), (1 : Nat))).1

/-- `CHUNK_SIZE.iter().product()`: the per-chunk cell count. -/
def chunkVolume : Nat := CHUNK_SIZE.foldl (· * ·) 1

/-- The odometer increment of `IndexIter::next` (chunk.rs lines 204–225),
unrolled over the three axes: the first axis not at its inclusive end is
incremented (the loop's `break`), every earlier axis wraps back to its start;
when all three axes sit at their ends (`next.len() == mag`) the iterator is
exhausted. -/
def indexIterStep (s e x : Index) : Option Index :=
  if x.1 ≠ e.1 then some (x.1 + 1, x.2.1, x.2.2)
  else if x.2.1 ≠ e.2.1 then some (s.1, x.2.1 + 1, x.2.2)
  else if x.2.2 ≠ e.2.2 then some (s.1, s.2.1, x.2.2 + 1)
  else none

/-- `IndexIter` (chunk.rs lines 180–200): the inclusive range plus the next
coordinate to yield (`None` once exhausted). -/
structure IndexIter where
  start : Index
  endInclusive : Index
  next : Option Index
deriving DecidableEq, Repr

/-- `IndexIter::new`: `assert!(s <= e)` on every axis (failure modelled as
`none`), and the first coordinate to yield is `start`. -/
def IndexIter.new (s e : Index) : Option IndexIter :=
  if s.1 ≤ e.1 ∧ s.2.1 ≤ e.2.1 ∧ s.2.2 ≤ e.2.2 then some ⟨s, e, some s⟩ else none

/-- `IndexIter::next`: yield the stored coordinate and advance the odometer. -/
def IndexIter.step (it : IndexIter) : Option Index × IndexIter :=
  match it.next with
  | none => (none, it)
  | some x => (some x, { it with next := indexIterStep it.start it.endInclusive x })

/-- Collect the iterator's outputs; `fuel` bounds the number of `next` calls. -/
def IndexIter.emit : IndexIter → Nat → List Index
  | _, 0 => []
  | it, fuel + 1 =>
    match it.step with
    | (none, _) => []
    | (some x, it2) => x :: IndexIter.emit it2 fuel

/-- One row of the closed box `[s, e]`: all coordinates with fixed axes 1 and 2. -/
def rowList (s e : Index) (x1 x2 : Nat) : List Index :=
  (List.range' s.1 (e.1 + 1 - s.1)).map fun x0 => (x0, x1, x2)

/-- One plane of the closed box: all rows with fixed axis 2. -/
def planeList (s e : Index) (x2 : Nat) : List Index :=
  (List.range' s.2.1 (e.2.1 + 1 - s.2.1)).flatMap fun x1 => rowList s e x1 x2

/-- All coordinates of the closed box `[s, e]` in odometer order (axis 0
fastest). -/
def boxList (s e : Index) : List Index :=
  (List.range' s.2.2 (e.2.2 + 1 - s.2.2)).flatMap fun x2 => planeList s e x2

theorem emit_row (s e : Index) (x1 x2 : Nat) :
    ∀ (k fuel x0 : Nat), x0 + k = e.1 →
      IndexIter.emit ⟨s, e, some (x0, x1, x2)⟩ (fuel + (k + 1)) =
        ((List.range' x0 (k + 1)).map fun a => ((a, x1, x2) : Index)) ++
          IndexIter.emit ⟨s, e, indexIterStep s e (e.1, x1, x2)⟩ fuel
  | 0, fuel, x0, hx0 => by
    have he : e.1 = x0 := by omega
    rw [← he]
    simp only [IndexIter.emit, IndexIter.step, Nat.zero_add, List.range'_one,
      List.map_cons, List.map_nil, List.cons_append, List.nil_append]
  | k + 1, fuel, x0, hx0 => by
    have hne : x0 ≠ e.1 := by omega
    have hstep : indexIterStep s e (x0, x1, x2) = some (x0 + 1, x1, x2) := by
      simp [indexIterStep, hne]
    have hrec := emit_row s e x1 x2 k fuel (x0 + 1) (by omega)
    calc IndexIter.emit ⟨s, e, some (x0, x1, x2)⟩ (fuel + (k + 1 + 1))
        = (x0, x1, x2) ::
            IndexIter.emit ⟨s, e, some (x0 + 1, x1, x2)⟩ (fuel + (k + 1)) := by
          simp only [IndexIter.emit, IndexIter.step, hstep]
      _ = ((List.range' x0 (k + 1 + 1)).map fun a => ((a, x1, x2) : Index)) ++
            IndexIter.emit ⟨s, e, indexIterStep s e (e.1, x1, x2)⟩ fuel := by
          rw [hrec]
          simp [List.range'_succ]

theorem emit_plane (s e : Index) (x2 : Nat) (hs0 : s.1 ≤ e.1) :
    ∀ (m fuel x1 : Nat), x1 + m = e.2.1 →
      IndexIter.emit ⟨s, e, some (s.1, x1, x2)⟩
          (fuel + ((List.range' x1 (m + 1)).flatMap fun b => rowList s e b x2).length) =
        ((List.range' x1 (m + 1)).flatMap fun b => rowList s e b x2) ++
          IndexIter.emit ⟨s, e, indexIterStep s e (e.1, e.2.1, x2)⟩ fuel
  | 0, fuel, x1, hx1 => by
    have he : e.2.1 = x1 := by omega
    rw [← he]
    have hlen : ((List.range' e.2.1 (0 + 1)).flatMap fun b => rowList s e b x2).length =
        (e.1 - s.1) + 1 := by
      simp only [Nat.zero_add, List.range'_one, List.flatMap_cons, List.flatMap_nil,
        List.append_nil, rowList, List.length_map, List.length_range']
      omega
    rw [hlen]
    rw [emit_row s e e.2.1 x2 (e.1 - s.1) fuel s.1 (by omega)]
    simp only [Nat.zero_add, List.range'_one, List.flatMap_cons, List.flatMap_nil,
      List.append_nil, rowList]
    rw [show e.1 + 1 - s.1 = (e.1 - s.1) + 1 by omega]
  | m + 1, fuel, x1, hx1 => by
    have hne : x1 ≠ e.2.1 := by omega
    have hstep : indexIterStep s e (e.1, x1, x2) = some (s.1, x1 + 1, x2) := by
      simp [indexIterStep, hne]
    have hsplit : (List.range' x1 (m + 1 + 1)).flatMap (fun b => rowList s e b x2) =
        rowList s e x1 x2 ++
          (List.range' (x1 + 1) (m + 1)).flatMap (fun b => rowList s e b x2) := by
      rw [List.range'_succ, List.flatMap_cons]
    have hrowlen : (rowList s e x1 x2).length = (e.1 - s.1) + 1 := by
      simp only [rowList, List.length_map, List.length_range']
      omega
    have hfuel : fuel + ((List.range' x1 (m + 1 + 1)).flatMap
        (fun b => rowList s e b x2)).length =
        (fuel + ((List.range' (x1 + 1) (m + 1)).flatMap
          (fun b => rowList s e b x2)).length) + ((e.1 - s.1) + 1) := by
      rw [hsplit, List.length_append, hrowlen]
      omega
    rw [hfuel]
    rw [emit_row s e x1 x2 (e.1 - s.1)
      (fuel + ((List.range' (x1 + 1) (m + 1)).flatMap (fun b => rowList s e b x2)).length)
      s.1 (by omega)]
    rw [hstep]
    rw [emit_plane s e x2 hs0 m fuel (x1 + 1) (by omega)]
    rw [hsplit, List.append_assoc]
    unfold rowList
    rw [show e.1 + 1 - s.1 = (e.1 - s.1) + 1 by omega]

theorem emit_box (s e : Index) (hs0 : s.1 ≤ e.1) (hs1 : s.2.1 ≤ e.2.1) :
    ∀ (m fuel x2 : Nat), x2 + m = e.2.2 →
      IndexIter.emit ⟨s, e, some (s.1, s.2.1, x2)⟩
          (fuel + ((List.range' x2 (m + 1)).flatMap fun c => planeList s e c).length) =
        ((List.range' x2 (m + 1)).flatMap fun c => planeList s e c) ++
          IndexIter.emit ⟨s, e, none⟩ fuel
  | 0, fuel, x2, hx2 => by
    have he : e.2.2 = x2 := by omega
    rw [← he]
    have hstepnone : indexIterStep s e (e.1, e.2.1, e.2.2) = none := by
      simp [indexIterStep]
    have hplane := emit_plane s e e.2.2 hs0 (e.2.1 - s.2.1) fuel s.2.1 (by omega)
    rw [show e.2.1 - s.2.1 + 1 = e.2.1 + 1 - s.2.1 by omega] at hplane
    rw [show ((List.range' s.2.1 (e.2.1 + 1 - s.2.1)).flatMap
      fun b => rowList s e b e.2.2) = planeList s e e.2.2 from rfl] at hplane
    rw [hstepnone] at hplane
    have hlen : ((List.range' e.2.2 (0 + 1)).flatMap fun c => planeList s e c) =
        planeList s e e.2.2 := by
      simp only [Nat.zero_add, List.range'_one, List.flatMap_cons, List.flatMap_nil,
        List.append_nil]
    rw [hlen]
    exact hplane
  | m + 1, fuel, x2, hx2 => by
    have hne : x2 ≠ e.2.2 := by omega
    have hstep : indexIterStep s e (e.1, e.2.1, x2) = some (s.1, s.2.1, x2 + 1) := by
      simp [indexIterStep, hne]
    have hsplit : (List.range' x2 (m + 1 + 1)).flatMap (fun c => planeList s e c) =
        planeList s e x2 ++
          (List.range' (x2 + 1) (m + 1)).flatMap (fun c => planeList s e c) := by
      rw [List.range'_succ, List.flatMap_cons]
    have hfuel : fuel + ((List.range' x2 (m + 1 + 1)).flatMap
        (fun c => planeList s e c)).length =
        (fuel + ((List.range' (x2 + 1) (m + 1)).flatMap
          (fun c => planeList s e c)).length) + (planeList s e x2).length := by
      rw [hsplit, List.length_append]
      omega
    rw [hfuel]
    have hplane := emit_plane s e x2 hs0 (e.2.1 - s.2.1)
      (fuel + ((List.range' (x2 + 1) (m + 1)).flatMap (fun c => planeList s e c)).length)
      s.2.1 (by omega)
    rw [show e.2.1 - s.2.1 + 1 = e.2.1 + 1 - s.2.1 by omega] at hplane
    rw [show ((List.range' s.2.1 (e.2.1 + 1 - s.2.1)).flatMap
      fun b => rowList s e b x2) = planeList s e x2 from rfl] at hplane
    rw [hplane, hstep]
    rw [emit_box s e hs0 hs1 m fuel (x2 + 1) (by omega)]
    rw [hsplit, List.append_assoc]

theorem mem_boxList (s e c : Index) :
    c ∈ boxList s e ↔
      s.1 ≤ c.1 ∧ c.1 ≤ e.1 ∧ s.2.1 ≤ c.2.1 ∧ c.2.1 ≤ e.2.1 ∧
        s.2.2 ≤ c.2.2 ∧ c.2.2 ≤ e.2.2 := by
  obtain ⟨c0, c1, c2⟩ := c
  simp only [boxList, planeList, rowList, List.mem_flatMap, List.mem_map,
    List.mem_range'_1, Prod.mk.injEq]
  constructor
  · rintro ⟨x2, hx2, x1, hx1, x0, hx0, rfl, rfl, rfl⟩
    omega
  · rintro ⟨h1, h2, h3, h4, h5, h6⟩
    exact ⟨c2, by omega, c1, by omega, c0, by omega, rfl, rfl, rfl⟩

theorem mem_rowList (s e : Index) (x1 x2 : Nat) (c : Index)
    (h : c ∈ rowList s e x1 x2) : c.2.1 = x1 ∧ c.2.2 = x2 := by
  simp only [rowList, List.mem_map] at h
  obtain ⟨x0, -, rfl⟩ := h
  exact ⟨rfl, rfl⟩

theorem mem_planeList (s e : Index) (x2 : Nat) (c : Index)
    (h : c ∈ planeList s e x2) : c.2.2 = x2 := by
  simp only [planeList, List.mem_flatMap] at h
  obtain ⟨x1, -, hc⟩ := h
  exact (mem_rowList s e x1 x2 c hc).2

theorem nodup_rowList (s e : Index) (x1 x2 : Nat) : (rowList s e x1 x2).Nodup := by
  unfold rowList
  refine List.Nodup.map ?_ (List.nodup_range' ..)
  intro a b hab
  injection hab

theorem nodup_planeList (s e : Index) (x2 : Nat) : (planeList s e x2).Nodup := by
  unfold planeList
  rw [List.nodup_flatMap]
  refine ⟨fun x1 _ => nodup_rowList s e x1 x2, ?_⟩
  refine List.Pairwise.imp ?_ (List.nodup_range' ..)
  intro a b hab c hca hcb
  exact hab ((mem_rowList s e a x2 c hca).1 ▸ (mem_rowList s e b x2 c hcb).1)

theorem nodup_boxList (s e : Index) : (boxList s e).Nodup := by
  unfold boxList
  rw [List.nodup_flatMap]
  refine ⟨fun x2 _ => nodup_planeList s e x2, ?_⟩
  refine List.Pairwise.imp ?_ (List.nodup_range' ..)
  intro a b hab c hca hcb
  exact hab ((mem_planeList s e a c hca) ▸ (mem_planeList s e b c hcb))

theorem emit_exhausted (s e : Index) :
    ∀ fuel, IndexIter.emit ⟨s, e, none⟩ fuel = []
  | 0 => rfl
  | fuel + 1 => by
    simp only [IndexIter.emit, IndexIter.step]

/-- C8 — functional_correctness: `IndexIter` yields exactly the coordinates of
the closed box in odometer order (`boxList`: axis 0 fastest, then axis 1, then
axis 2), each exactly once (`Nodup`), from `start` to `end`, and then yields
nothing (any surplus fuel produces no further elements); construction fails
(`none`, the failed assertion) exactly when `start[i] > end[i]` on some axis. -/
theorem c8_index_iter_enumerates_box (s e : Index) :
    (IndexIter.new s e = none ↔ ¬(s.1 ≤ e.1 ∧ s.2.1 ≤ e.2.1 ∧ s.2.2 ≤ e.2.2)) ∧
      ∀ it, IndexIter.new s e = some it →
        (∀ extra, IndexIter.emit it (extra + (boxList s e).length) = boxList s e) ∧
        (∀ c : Index, c ∈ boxList s e ↔
          s.1 ≤ c.1 ∧ c.1 ≤ e.1 ∧ s.2.1 ≤ c.2.1 ∧ c.2.1 ≤ e.2.1 ∧
            s.2.2 ≤ c.2.2 ∧ c.2.2 ≤ e.2.2) ∧
        (boxList s e).Nodup := by
  by_cases hc : s.1 ≤ e.1 ∧ s.2.1 ≤ e.2.1 ∧ s.2.2 ≤ e.2.2
  · constructor
    · simp [IndexIter.new, hc]
    · intro it hit
      rw [IndexIter.new, if_pos hc] at hit
      injection hit with hit
      refine ⟨?_, fun c => mem_boxList s e c, nodup_boxList s e⟩
      intro extra
      have hbox : boxList s e = (List.range' s.2.2 ((e.2.2 - s.2.2) + 1)).flatMap
          (fun c => planeList s e c) := by
        unfold boxList
        rw [show e.2.2 + 1 - s.2.2 = (e.2.2 - s.2.2) + 1 by omega]
      have hemit := emit_box s e hc.1 hc.2.1 (e.2.2 - s.2.2) extra s.2.2 (by omega)
      rw [show ((s.1 : Nat), (s.2.1 : Nat), (s.2.2 : Nat)) = s from rfl] at hemit
      rw [← hit, hbox, hemit, emit_exhausted, List.append_nil]
  · constructor
    · simp [IndexIter.new, hc]
    · intro it hit
      rw [IndexIter.new, if_neg hc] at hit
      cases hit

/-- Witness for C8 on the box of the repository's `test_index_iter`. -/
theorem c8_index_iter_enumerates_box_witness :
    IndexIter.new ((0 : Nat), (1 : Nat), (2 : Nat)) (1, 3, 2) =
        some ⟨(0, 1, 2), (1, 3, 2), some (0, 1, 2)⟩ ∧
      IndexIter.emit (⟨(0, 1, 2), (1, 3, 2), some (0, 1, 2)⟩ : IndexIter)
          (0 + (boxList (0, 1, 2) (1, 3, 2)).length) = boxList (0, 1, 2) (1, 3, 2) ∧
      boxList ((0 : Nat), (1 : Nat), (2 : Nat)) (1, 3, 2) =
        [(0, 1, 2), (1, 1, 2), (0, 2, 2), (1, 2, 2), (0, 3, 2), (1, 3, 2)] :=
  ⟨by decide,
    ((c8_index_iter_enumerates_box (0, 1, 2) (1, 3, 2)).2
      ⟨(0, 1, 2), (1, 3, 2), some (0, 1, 2)⟩ (by decide)).1 0,
    by decide⟩

/-- C6 — algebraic_relational: `interval_tree_index` computes the mixed-radix
sum `Σ (voxel[i] mod chunkSize[i]) * weight_i` with `weight_0 = 1` and
`weight_i = weight_(i-1) * chunkSize[i-1]`, and restricted to per-axis
remainder triples it is a bijection onto `[0, chunkVolume)`. -/
theorem c6_interval_tree_index_mixed_radix_bijection :
    (∀ v : Index, interval_tree_index v =
        (v.1 % (2 <<< 4)) * 1 + (v.2.1 % (2 <<< 4)) * (1 * (2 <<< 4)) +
          (v.2.2 % (2 <<< 4)) * (1 * (2 <<< 4) * (2 <<< 4))) ∧
      Set.BijOn interval_tree_index
        {r : Index | r.1 < 2 <<< 4 ∧ r.2.1 < 2 <<< 4 ∧ r.2.2 < 2 <<< 4}
        (Set.Iio chunkVolume) := by
  have h32 : (2 <<< 4 : Nat) = 32 := rfl
  have hvol : chunkVolume = 32768 := rfl
  have hclosed : ∀ v : Index, interval_tree_index v =
      (v.1 % (2 <<< 4)) * 1 + (v.2.1 % (2 <<< 4)) * (1 * (2 <<< 4)) +
        (v.2.2 % (2 <<< 4)) * (1 * (2 <<< 4) * (2 <<< 4)) := by
    intro v
    show 0 + v.1 % (2 <<< 4) * 1 + v.2.1 % (2 <<< 4) * (1 * (2 <<< 4)) +
        v.2.2 % (2 <<< 4) * (1 * (2 <<< 4) * (2 <<< 4)) =
      v.1 % (2 <<< 4) * 1 + v.2.1 % (2 <<< 4) * (1 * (2 <<< 4)) +
        v.2.2 % (2 <<< 4) * (1 * (2 <<< 4) * (2 <<< 4))
    omega
  refine ⟨hclosed, ?_, ?_, ?_⟩
  · rintro ⟨r0, r1, r2⟩ ⟨h0, h1, h2⟩
    have := hclosed (r0, r1, r2)
    simp only [Set.mem_Iio, hvol]
    simp only [h32] at this h0 h1 h2
    rw [this]
    show r0 % 32 * 1 + r1 % 32 * (1 * 32) + r2 % 32 * (1 * 32 * 32) < 32768
    omega
  · rintro ⟨a0, a1, a2⟩ ⟨ha0, ha1, ha2⟩ ⟨b0, b1, b2⟩ ⟨hb0, hb1, hb2⟩ heq
    rw [hclosed (a0, a1, a2), hclosed (b0, b1, b2)] at heq
    simp only [h32] at heq ha0 ha1 ha2 hb0 hb1 hb2
    have hcomp : a0 = b0 ∧ a1 = b1 ∧ a2 = b2 := by omega
    simp only [Prod.mk.injEq]
    exact ⟨hcomp.1, hcomp.2.1, hcomp.2.2⟩
  · intro k hk
    simp only [Set.mem_Iio, hvol] at hk
    refine ⟨(k % 32, k / 32 % 32, k / 1024), ?_, ?_⟩
    · show k % 32 < 2 <<< 4 ∧ k / 32 % 32 < 2 <<< 4 ∧ k / 1024 < 2 <<< 4
      simp only [h32]
      omega
    · rw [hclosed (k % 32, k / 32 % 32, k / 1024)]
      show k % 32 % (2 <<< 4) * 1 + k / 32 % 32 % (2 <<< 4) * (1 * (2 <<< 4)) +
          k / 1024 % (2 <<< 4) * (1 * (2 <<< 4) * (2 <<< 4)) = k
      simp only [h32]
      omega

/-! ### chunk.rs: chunks, the chunk map and the value iterator -/

/-- `Chunk<T>` (chunk.rs lines 242–255): one interval tree per chunk. -/
structure Chunk (T : Type) where
  data : ContiguousIntervalTree T

/-- `Chunk::new`: asserts `data.capacity() == CHUNK_SIZE.iter().product()`. -/
def Chunk.new {T : Type} (data : ContiguousIntervalTree T) : Option (Chunk T) :=
  if data.capacity = chunkVolume then some ⟨data⟩ else none

/-- `ChunkSet<T>` (chunk.rs lines 56–77): the sparse chunk map, modelled by the
lookup function of its `HashMap` (a missing key is `none`, never implicitly
created). -/
structure ChunkSet (T : Type) where
  chunks : Index → Option (Chunk T)

/-- `ChunkSet::set_chunk`: insert or replace. -/
def ChunkSet.set_chunk {T : Type} (cs : ChunkSet T) (index : Index) (chunk : Chunk T) :
    ChunkSet T :=
  ⟨fun i => if i = index then some chunk else cs.chunks i⟩

/-- The value stored at voxel `c`: its chunk's tree read at the intra-chunk
index (`none` when the chunk is missing or the read panics). -/
def storedAt {T : Type} (cs : ChunkSet T) (c : Index) : Option T :=
  (cs.chunks (chunk_index c)).bind fun ch => ch.data.get (interval_tree_index c)

/-- `ValueIter` (chunk.rs lines 79–105).  The borrowed `chunk_set` is passed to
`next` explicitly; `cell_iter` caches the chunk coordinate together with the
cell-wise iterator state inside that chunk (the source stores a borrowing
`CellWiseIter`; the chunk itself is recovered from the immutable map by the
cached coordinate). -/
structure ValueIter (T : Type) where
  range_start : Index
  range_end : Index
  index_iter : IndexIter
  cell_iter : Option (Index × CellWiseIterState)
deriving DecidableEq

/-- `ValueIter::new` (chunk.rs lines 87–95): builds the inner `IndexIter` over
the same box; no cell iterator yet. -/
def ValueIter.new {T : Type} (s e : Index) : Option (ValueIter T) :=
  (IndexIter.new s e).map fun ii => ⟨s, e, ii, none⟩

/-- `ValueIter::set_cell_iter` (chunk.rs lines 97–105): look up the voxel's
chunk (`.unwrap()` on a missing chunk panics — modelled `none`) and position a
cell-wise iterator at the voxel's intra-chunk index. -/
def setCellIter {T : Type} (cs : ChunkSet T) (it : ValueIter T) (i : Index) :
    Option (ValueIter T) :=
  match cs.chunks (chunk_index i) with
  | none => none
  | some chunk =>
    let iter := cell_wise_iter_from chunk.data (interval_tree_index i)
    some { it with cell_iter := some (chunk_index i, iter) }

/-- `ValueIter::next` (chunk.rs lines 107–120).  The outer `none` models a
panic; `some (it, none)` is normal exhaustion of the coordinate iterator;
`some (it, some v)` yields the value `v`. -/
def ValueIter.next {T : Type} (cs : ChunkSet T) (it : ValueIter T) :
    Option (ValueIter T × Option T) :=
  match it.index_iter.step with
  | (none, ii) => some ({ it with index_iter := ii }, none)
  | (some c, ii) =>
    let it1 : ValueIter T := { it with index_iter := ii }
    match (if c.1 = it1.range_start.1 then setCellIter cs it1 c else some it1) with
    | none => none
    | some it2 =>
      match it2.cell_iter with
      | none => none
      | some (cc, _) =>
        match (if chunk_index c ≠ cc then setCellIter cs it2 c else some it2) with
        | none => none
        | some it3 =>
          match it3.cell_iter with
          | none => none
          | some (cc3, st) =>
            match cs.chunks cc3 with
            | none => none
            | some chunk =>
              match CellWiseIterState.next chunk.data st with
              | none => none
              | some (v, st2) =>
                some ({ it3 with cell_iter := some (cc3, st2) }, some v)

/-- Collect the values produced by `ValueIter`; the outer `none` reports a
panic during the first `fuel` pulls. -/
def valueEmit {T : Type} (cs : ChunkSet T) : ValueIter T → Nat → Option (List T)
  | _, 0 => some []
  | it, fuel + 1 =>
    match ValueIter.next cs it with
    | none => none
    | some (_, none) => some []
    | some (it2, some v) => (valueEmit cs it2 fuel).map (v :: ·)

/-- C4 — error_handling evidence: with an empty chunk map, the very first
`next()` of a `ValueIter` over the one-voxel box at the origin reaches
`set_cell_iter`, whose `.unwrap()` of the missing chunk panics (modelled as the
outer `none`) instead of producing a recoverable error value. -/
theorem c4_missing_chunk_crash :
    (ValueIter.new ((0 : Nat), (0 : Nat), (0 : Nat)) (0, 0, 0) :
        Option (ValueIter Nat)) =
      some ⟨(0, 0, 0), (0, 0, 0), ⟨(0, 0, 0), (0, 0, 0), some (0, 0, 0)⟩, none⟩ ∧
      ValueIter.next (⟨fun _ => none⟩ : ChunkSet Nat)
        ⟨(0, 0, 0), (0, 0, 0), ⟨(0, 0, 0), (0, 0, 0), some (0, 0, 0)⟩, none⟩ = none :=
  ⟨rfl, rfl⟩

/-! ### Arithmetic facts about the linearization -/

theorem interval_tree_index_closed (v : Index) :
    interval_tree_index v = v.1 % 32 + v.2.1 % 32 * 32 + v.2.2 % 32 * 1024 := by
  show 0 + v.1 % 32 * 1 + v.2.1 % 32 * (1 * 32) + v.2.2 % 32 * (1 * 32 * 32) =
    v.1 % 32 + v.2.1 % 32 * 32 + v.2.2 % 32 * 1024
  omega

theorem interval_tree_index_lt (v : Index) : interval_tree_index v < chunkVolume := by
  rw [interval_tree_index_closed]
  show v.1 % 32 + v.2.1 % 32 * 32 + v.2.2 % 32 * 1024 < 32768
  omega

theorem interval_tree_index_succ (v : Index) (h : (v.1 + 1) / 32 = v.1 / 32) :
    interval_tree_index (v.1 + 1, v.2.1, v.2.2) = interval_tree_index v + 1 := by
  rw [interval_tree_index_closed, interval_tree_index_closed]
  show (v.1 + 1) % 32 + v.2.1 % 32 * 32 + v.2.2 % 32 * 1024 =
    v.1 % 32 + v.2.1 % 32 * 32 + v.2.2 % 32 * 1024 + 1
  omega

theorem chunk_index_eq_iff (a b : Index) :
    chunk_index a = chunk_index b ↔
      a.1 / 32 = b.1 / 32 ∧ a.2.1 / 32 = b.2.1 / 32 ∧ a.2.2 / 32 = b.2.2 / 32 := by
  show ((a.1 / 32, a.2.1 / 32, a.2.2 / 32) : Index) = (b.1 / 32, b.2.1 / 32, b.2.2 / 32) ↔ _
  simp [Prod.ext_iff]

/-- One successful pull of `ValueIter::next` at coordinate `c`: when `c`'s
chunk is present and well-formed, and the cached cell iterator either gets
rebuilt (row start, or chunk switch) or sits exactly one cell past `c`'s
predecessor in the same chunk, the call yields the stored value at `c` and
leaves the cache one cell past `c`. -/
theorem valueIter_next_yield {T : Type} (cs : ChunkSet T) (s e : Index) (c : Index)
    (cache : Option (Index × CellWiseIterState))
    (hch : ∃ ch, cs.chunks (chunk_index c) = some ch ∧ ch.data.check_rep = true ∧
      ch.data.capacity = chunkVolume)
    (hcol : c.1 = s.1 ∨ (c.1 ≠ s.1 ∧ 1 ≤ c.1 ∧
      ∃ ch0, cs.chunks (chunk_index (c.1 - 1, c.2.1, c.2.2)) = some ch0 ∧
        ch0.data.check_rep = true ∧ ch0.data.capacity = chunkVolume ∧
        cache = some (chunk_index (c.1 - 1, c.2.1, c.2.2),
          cell_wise_iter_from ch0.data
            (interval_tree_index (c.1 - 1, c.2.1, c.2.2) + 1)))) :
    ∃ ch v,
      cs.chunks (chunk_index c) = some ch ∧ ch.data.check_rep = true ∧
      ch.data.capacity = chunkVolume ∧
      storedAt cs c = some v ∧
      ValueIter.next cs ⟨s, e, ⟨s, e, some c⟩, cache⟩ =
        some (⟨s, e, ⟨s, e, indexIterStep s e c⟩,
          some (chunk_index c,
            cell_wise_iter_from ch.data (interval_tree_index c + 1))⟩, some v) := by
  obtain ⟨ch, hcs, hrep, hcap⟩ := hch
  have hlt : interval_tree_index c < ch.data.capacity := by
    rw [hcap]
    exact interval_tree_index_lt c
  obtain ⟨v, hget, hnext⟩ := next_cell_wise_iter_from ch.data hrep (interval_tree_index c) hlt
  refine ⟨ch, v, hcs, hrep, hcap, ?_, ?_⟩
  · unfold storedAt
    rw [hcs]
    simpa using hget
  · have hstep : (IndexIter.step ⟨s, e, some c⟩ : Option Index × IndexIter) =
        (some c, ⟨s, e, indexIterStep s e c⟩) := rfl
    simp only [ValueIter.next, hstep]
    rcases hcol with hcol | ⟨hne, hc1, ch0, hcs0, hrep0, hcap0, hcache⟩
    · have hset1 : setCellIter cs ⟨s, e, ⟨s, e, indexIterStep s e c⟩, cache⟩ c =
          some ⟨s, e, ⟨s, e, indexIterStep s e c⟩,
            some (chunk_index c, cell_wise_iter_from ch.data (interval_tree_index c))⟩ := by
        unfold setCellIter
        rw [hcs]
      simp only [if_pos hcol, hset1,
        if_neg (show ¬ (chunk_index c ≠ chunk_index c) by simp), hcs, hnext]
    · by_cases hccne : chunk_index c ≠ chunk_index (c.1 - 1, c.2.1, c.2.2)
      · have hset2 : setCellIter cs ⟨s, e, ⟨s, e, indexIterStep s e c⟩,
            some (chunk_index (c.1 - 1, c.2.1, c.2.2),
              cell_wise_iter_from ch0.data
                (interval_tree_index (c.1 - 1, c.2.1, c.2.2) + 1))⟩ c =
          some ⟨s, e, ⟨s, e, indexIterStep s e c⟩,
            some (chunk_index c, cell_wise_iter_from ch.data (interval_tree_index c))⟩ := by
          unfold setCellIter
          rw [hcs]
        simp only [if_neg hne, hcache, if_pos hccne, hset2, hcs, hnext]
      · have hcc : chunk_index c = chunk_index (c.1 - 1, c.2.1, c.2.2) :=
          not_not.mp hccne
        have hchunk0 : ch0 = ch := by
          rw [← hcc] at hcs0
          rw [hcs0] at hcs
          injection hcs
        subst hchunk0
        have hquot : (c.1 - 1 + 1) / 32 = (c.1 - 1) / 32 := by
          have h2 := (chunk_index_eq_iff c (c.1 - 1, c.2.1, c.2.2)).1 hcc
          have e1 : c.1 - 1 + 1 = c.1 := by omega
          rw [e1]
          exact h2.1
        have hsucc := interval_tree_index_succ (c.1 - 1, c.2.1, c.2.2) hquot
        rw [show ((c.1 - 1 + 1 : Nat), c.2.1, c.2.2) = c by
          rw [show c.1 - 1 + 1 = c.1 by omega]] at hsucc
        have hsucc2 : interval_tree_index (c.1 - 1, c.2.1, c.2.2) + 1 =
            interval_tree_index c := hsucc.symm
        simp only [if_neg hne, hcache, if_neg hccne, hsucc2, ← hcc, hcs, hnext,
          if_neg (show ¬ (chunk_index c ≠ chunk_index c) by simp)]

theorem valueEmit_succ {T : Type} (cs : ChunkSet T) (it it2 : ValueIter T) (v : T)
    (fuel : Nat) (h : ValueIter.next cs it = some (it2, some v)) :
    valueEmit cs it (fuel + 1) =
      Option.map (fun rest => v :: rest) (valueEmit cs it2 fuel) := by
  show (match ValueIter.next cs it with
    | none => none
    | some (_, none) => some []
    | some (it3, some v2) => (valueEmit cs it3 fuel).map (v2 :: ·)) =
      Option.map (fun rest => v :: rest) (valueEmit cs it2 fuel)
  rw [h]

/-- The closed box as a predicate on coordinates ("chunks touched by the box"
are the chunks of coordinates satisfying it). -/
def inBox (s e c : Index) : Prop :=
  s.1 ≤ c.1 ∧ c.1 ≤ e.1 ∧ s.2.1 ≤ c.2.1 ∧ c.2.1 ≤ e.2.1 ∧ s.2.2 ≤ c.2.2 ∧ c.2.2 ≤ e.2.2

theorem valueEmit_row {T : Type} (cs : ChunkSet T) (s e : Index)
    (hch : ∀ c : Index, inBox s e c → ∃ ch, cs.chunks (chunk_index c) = some ch ∧
      ch.data.check_rep = true ∧ ch.data.capacity = chunkVolume)
    (x1 x2 : Nat)
    (hx1a : s.2.1 ≤ x1) (hx1b : x1 ≤ e.2.1) (hx2a : s.2.2 ≤ x2) (hx2b : x2 ≤ e.2.2) :
    ∀ (k fuel x0 : Nat) (cache : Option (Index × CellWiseIterState)),
      x0 + k = e.1 → s.1 ≤ x0 →
      (x0 = s.1 ∨ (x0 ≠ s.1 ∧ 1 ≤ x0 ∧
        ∃ ch0, cs.chunks (chunk_index (x0 - 1, x1, x2)) = some ch0 ∧
          ch0.data.check_rep = true ∧ ch0.data.capacity = chunkVolume ∧
          cache = some (chunk_index (x0 - 1, x1, x2),
            cell_wise_iter_from ch0.data (interval_tree_index (x0 - 1, x1, x2) + 1)))) →
      ∃ vs endCache,
        valueEmit cs ⟨s, e, ⟨s, e, some (x0, x1, x2)⟩, cache⟩ (fuel + (k + 1)) =
          Option.map (fun rest => vs ++ rest)
            (valueEmit cs ⟨s, e, ⟨s, e, indexIterStep s e (e.1, x1, x2)⟩, endCache⟩ fuel) ∧
        vs.map some =
          (List.range' x0 (k + 1)).map fun a => storedAt cs ((a, x1, x2) : Index)
  | 0, fuel, x0, cache, hx0, hs0x, hcol => by
    have hin : inBox s e (x0, x1, x2) := ⟨hs0x, by omega, hx1a, hx1b, hx2a, hx2b⟩
    obtain ⟨ch, v, hcs, hrep, hcap, hstored, hnextV⟩ :=
      valueIter_next_yield cs s e (x0, x1, x2) cache (hch _ hin) hcol
    have he : e.1 = x0 := by omega
    rw [he]
    refine ⟨[v], some (chunk_index ((x0 : Nat), x1, x2),
      cell_wise_iter_from ch.data (interval_tree_index ((x0 : Nat), x1, x2) + 1)), ?_, ?_⟩
    · simp only [Nat.zero_add]
      show valueEmit cs ⟨s, e, ⟨s, e, some (x0, x1, x2)⟩, cache⟩ (fuel + 1) = _
      simp only [valueEmit, hnextV]
      cases valueEmit cs ⟨s, e, ⟨s, e, indexIterStep s e ((x0 : Nat), x1, x2)⟩,
          some (chunk_index ((x0 : Nat), x1, x2),
            cell_wise_iter_from ch.data (interval_tree_index ((x0 : Nat), x1, x2) + 1))⟩
          fuel with
      | none => rfl
      | some rest => rfl
    · simp only [Nat.zero_add, List.range'_one, List.map_cons, List.map_nil]
      rw [hstored]
  | k + 1, fuel, x0, cache, hx0, hs0x, hcol => by
    have hin : inBox s e (x0, x1, x2) := ⟨hs0x, by omega, hx1a, hx1b, hx2a, hx2b⟩
    obtain ⟨ch, v, hcs, hrep, hcap, hstored, hnextV⟩ :=
      valueIter_next_yield cs s e (x0, x1, x2) cache (hch _ hin) hcol
    have hstep2 : indexIterStep s e ((x0 : Nat), x1, x2) = some (x0 + 1, x1, x2) := by
      have : x0 ≠ e.1 := by omega
      simp [indexIterStep, this]
    rw [hstep2] at hnextV
    obtain ⟨vs2, endCache, hemit2, hmap2⟩ :=
      valueEmit_row cs s e hch x1 x2 hx1a hx1b hx2a hx2b k fuel (x0 + 1)
        (some (chunk_index ((x0 : Nat), x1, x2),
          cell_wise_iter_from ch.data (interval_tree_index ((x0 : Nat), x1, x2) + 1)))
        (by omega) (by omega)
        (Or.inr ⟨by omega, by omega, ch, hcs, hrep, hcap, rfl⟩)
    refine ⟨v :: vs2, endCache, ?_, ?_⟩
    · show valueEmit cs ⟨s, e, ⟨s, e, some (x0, x1, x2)⟩, cache⟩ (fuel + (k + 1) + 1) = _
      rw [valueEmit_succ cs _ _ v (fuel + (k + 1)) hnextV]
      rw [hemit2, Option.map_map]
      cases valueEmit cs ⟨s, e, ⟨s, e, indexIterStep s e (e.1, x1, x2)⟩, endCache⟩
          fuel with
      | none => rfl
      | some rest => rfl
    · simp only [List.map_cons, List.range'_succ, hmap2]
      rw [hstored]

theorem valueEmit_plane {T : Type} (cs : ChunkSet T) (s e : Index)
    (hch : ∀ c : Index, inBox s e c → ∃ ch, cs.chunks (chunk_index c) = some ch ∧
      ch.data.check_rep = true ∧ ch.data.capacity = chunkVolume)
    (hs0 : s.1 ≤ e.1) (x2 : Nat) (hx2a : s.2.2 ≤ x2) (hx2b : x2 ≤ e.2.2) :
    ∀ (m fuel x1 : Nat) (cache : Option (Index × CellWiseIterState)),
      x1 + m = e.2.1 → s.2.1 ≤ x1 →
      ∃ vs endCache,
        valueEmit cs ⟨s, e, ⟨s, e, some (s.1, x1, x2)⟩, cache⟩
            (fuel + ((List.range' x1 (m + 1)).flatMap fun b => rowList s e b x2).length) =
          Option.map (fun rest => vs ++ rest)
            (valueEmit cs ⟨s, e, ⟨s, e, indexIterStep s e (e.1, e.2.1, x2)⟩, endCache⟩
              fuel) ∧
        vs.map some =
          ((List.range' x1 (m + 1)).flatMap fun b => rowList s e b x2).map (storedAt cs)
  | 0, fuel, x1, cache, hx1, hsx1 => by
    have he : x1 = e.2.1 := by omega
    subst he
    have hlen : ((List.range' e.2.1 (0 + 1)).flatMap fun b => rowList s e b x2).length =
        (e.1 - s.1) + 1 := by
      simp only [Nat.zero_add, List.range'_one, List.flatMap_cons, List.flatMap_nil,
        List.append_nil, rowList, List.length_map, List.length_range']
      omega
    rw [hlen]
    obtain ⟨vs, endCache, hemit, hmap⟩ :=
      valueEmit_row cs s e hch e.2.1 x2 hsx1 (le_refl _) hx2a hx2b
        (e.1 - s.1) fuel s.1 cache (by omega) (le_refl _) (Or.inl rfl)
    refine ⟨vs, endCache, hemit, ?_⟩
    rw [hmap]
    simp only [Nat.zero_add, List.range'_one, List.flatMap_cons, List.flatMap_nil,
      List.append_nil, rowList, List.map_map]
    rw [show e.1 - s.1 + 1 = e.1 + 1 - s.1 by omega]
    rfl
  | m + 1, fuel, x1, cache, hx1, hsx1 => by
    have hne : x1 ≠ e.2.1 := by omega
    have hstep : indexIterStep s e (e.1, x1, x2) = some (s.1, x1 + 1, x2) := by
      simp [indexIterStep, hne]
    have hsplit : (List.range' x1 (m + 1 + 1)).flatMap (fun b => rowList s e b x2) =
        rowList s e x1 x2 ++
          (List.range' (x1 + 1) (m + 1)).flatMap (fun b => rowList s e b x2) := by
      rw [List.range'_succ, List.flatMap_cons]
    have hrowlen : (rowList s e x1 x2).length = (e.1 - s.1) + 1 := by
      simp only [rowList, List.length_map, List.length_range']
      omega
    have hfuel : fuel + ((List.range' x1 (m + 1 + 1)).flatMap
        (fun b => rowList s e b x2)).length =
        (fuel + ((List.range' (x1 + 1) (m + 1)).flatMap
          (fun b => rowList s e b x2)).length) + ((e.1 - s.1) + 1) := by
      rw [hsplit, List.length_append, hrowlen]
      omega
    rw [hfuel]
    obtain ⟨vsRow, cache2, hemitRow, hmapRow⟩ :=
      valueEmit_row cs s e hch x1 x2 hsx1 (by omega) hx2a hx2b (e.1 - s.1)
        (fuel + ((List.range' (x1 + 1) (m + 1)).flatMap (fun b => rowList s e b x2)).length)
        s.1 cache (by omega) (le_refl _) (Or.inl rfl)
    rw [hstep] at hemitRow
    obtain ⟨vsRest, endCache, hemitRest, hmapRest⟩ :=
      valueEmit_plane cs s e hch hs0 x2 hx2a hx2b m fuel (x1 + 1) cache2
        (by omega) (by omega)
    refine ⟨vsRow ++ vsRest, endCache, ?_, ?_⟩
    · rw [hemitRow, hemitRest, Option.map_map]
      cases valueEmit cs ⟨s, e, ⟨s, e, indexIterStep s e (e.1, e.2.1, x2)⟩, endCache⟩
          fuel with
      | none => rfl
      | some rest =>
        show some (vsRow ++ (vsRest ++ rest)) = some ((vsRow ++ vsRest) ++ rest)
        rw [List.append_assoc]
    · rw [hsplit, List.map_append, List.map_append, hmapRest]
      congr 1
      rw [hmapRow]
      simp only [rowList, List.map_map]
      rw [show e.1 - s.1 + 1 = e.1 + 1 - s.1 by omega]
      rfl

theorem valueEmit_exhausted {T : Type} (cs : ChunkSet T) (s e : Index)
    (cache : Option (Index × CellWiseIterState)) :
    ∀ fuel, valueEmit cs ⟨s, e, ⟨s, e, none⟩, cache⟩ fuel = some []
  | 0 => rfl
  | fuel + 1 => by
    simp only [valueEmit, ValueIter.next, IndexIter.step]

theorem valueEmit_box {T : Type} (cs : ChunkSet T) (s e : Index)
    (hch : ∀ c : Index, inBox s e c → ∃ ch, cs.chunks (chunk_index c) = some ch ∧
      ch.data.check_rep = true ∧ ch.data.capacity = chunkVolume)
    (hs0 : s.1 ≤ e.1) (hs1 : s.2.1 ≤ e.2.1) :
    ∀ (m fuel x2 : Nat) (cache : Option (Index × CellWiseIterState)),
      x2 + m = e.2.2 → s.2.2 ≤ x2 →
      ∃ vs endCache,
        valueEmit cs ⟨s, e, ⟨s, e, some (s.1, s.2.1, x2)⟩, cache⟩
            (fuel + ((List.range' x2 (m + 1)).flatMap fun c => planeList s e c).length) =
          Option.map (fun rest => vs ++ rest)
            (valueEmit cs ⟨s, e, ⟨s, e, none⟩, endCache⟩ fuel) ∧
        vs.map some =
          ((List.range' x2 (m + 1)).flatMap fun c => planeList s e c).map (storedAt cs)
  | 0, fuel, x2, cache, hx2, hsx2 => by
    have he : x2 = e.2.2 := by omega
    subst he
    have hstepnone : indexIterStep s e (e.1, e.2.1, e.2.2) = none := by
      simp [indexIterStep]
    have hone : ((List.range' e.2.2 (0 + 1)).flatMap fun c => planeList s e c) =
        planeList s e e.2.2 := by
      simp only [Nat.zero_add, List.range'_one, List.flatMap_cons, List.flatMap_nil,
        List.append_nil]
    rw [hone]
    obtain ⟨vs, endCache, hemit, hmap⟩ :=
      valueEmit_plane cs s e hch hs0 e.2.2 hsx2 (le_refl _) (e.2.1 - s.2.1) fuel s.2.1
        cache (by omega) (le_refl _)
    rw [hstepnone] at hemit
    rw [show e.2.1 - s.2.1 + 1 = e.2.1 + 1 - s.2.1 by omega] at hemit hmap
    refine ⟨vs, endCache, ?_, ?_⟩
    · rw [show planeList s e e.2.2 = (List.range' s.2.1 (e.2.1 + 1 - s.2.1)).flatMap
        (fun b => rowList s e b e.2.2) from rfl]
      exact hemit
    · rw [show planeList s e e.2.2 = (List.range' s.2.1 (e.2.1 + 1 - s.2.1)).flatMap
        (fun b => rowList s e b e.2.2) from rfl]
      exact hmap
  | m + 1, fuel, x2, cache, hx2, hsx2 => by
    have hne : x2 ≠ e.2.2 := by omega
    have hstep : indexIterStep s e (e.1, e.2.1, x2) = some (s.1, s.2.1, x2 + 1) := by
      simp [indexIterStep, hne]
    have hsplit : (List.range' x2 (m + 1 + 1)).flatMap (fun c => planeList s e c) =
        planeList s e x2 ++
          (List.range' (x2 + 1) (m + 1)).flatMap (fun c => planeList s e c) := by
      rw [List.range'_succ, List.flatMap_cons]
    have hfuel : fuel + ((List.range' x2 (m + 1 + 1)).flatMap
        (fun c => planeList s e c)).length =
        (fuel + ((List.range' (x2 + 1) (m + 1)).flatMap
          (fun c => planeList s e c)).length) + (planeList s e x2).length := by
      rw [hsplit, List.length_append]
      omega
    rw [hfuel]
    obtain ⟨vsPlane, cache2, hemitPlane, hmapPlane⟩ :=
      valueEmit_plane cs s e hch hs0 x2 hsx2 (by omega) (e.2.1 - s.2.1)
        (fuel + ((List.range' (x2 + 1) (m + 1)).flatMap (fun c => planeList s e c)).length)
        s.2.1 cache (by omega) (le_refl _)
    rw [hstep] at hemitPlane
    rw [show e.2.1 - s.2.1 + 1 = e.2.1 + 1 - s.2.1 by omega] at hemitPlane hmapPlane
    rw [show ((List.range' s.2.1 (e.2.1 + 1 - s.2.1)).flatMap
      (fun b => rowList s e b x2)) = planeList s e x2 from rfl] at hemitPlane hmapPlane
    obtain ⟨vsRest, endCache, hemitRest, hmapRest⟩ :=
      valueEmit_box cs s e hch hs0 hs1 m fuel (x2 + 1) cache2 (by omega) (by omega)
    refine ⟨vsPlane ++ vsRest, endCache, ?_, ?_⟩
    · rw [hemitPlane, hemitRest, Option.map_map]
      cases valueEmit cs ⟨s, e, ⟨s, e, none⟩, endCache⟩ fuel with
      | none => rfl
      | some rest =>
        show some (vsPlane ++ (vsRest ++ rest)) = some ((vsPlane ++ vsRest) ++ rest)
        rw [List.append_assoc]
    · rw [hsplit, List.map_append, List.map_append, hmapRest, hmapPlane]

/-- C5 — functional_correctness (with the spec-modelled `cell_wise_iter_from`):
when every chunk touched by the closed box is present and well-formed,
`ValueIter` yields, for each coordinate produced by the internal `IndexIter`
over the same box in order (`boxList`, axis 0 fastest), exactly the value
stored at that coordinate's intra-chunk index in its chunk's run-length array —
including where the traversal crosses a chunk boundary along axis 0 — and no
pull panics. -/
theorem c5_value_iter_yields_stored_values {T : Type} (cs : ChunkSet T) (s e : Index)
    (hch : ∀ c : Index, inBox s e c → ∃ ch, cs.chunks (chunk_index c) = some ch ∧
      ch.data.check_rep = true ∧ ch.data.capacity = chunkVolume)
    (it : ValueIter T) (hnew : ValueIter.new s e = some it) :
    ∀ extra,
      IndexIter.emit it.index_iter (extra + (boxList s e).length) = boxList s e ∧
      ∃ vs, valueEmit cs it (extra + (boxList s e).length) = some vs ∧
        vs.map some = (boxList s e).map (storedAt cs) := by
  unfold ValueIter.new IndexIter.new at hnew
  by_cases hc : s.1 ≤ e.1 ∧ s.2.1 ≤ e.2.1 ∧ s.2.2 ≤ e.2.2
  · rw [if_pos hc] at hnew
    rw [show Option.map (fun ii => (⟨s, e, ii, none⟩ : ValueIter T))
      (some ⟨s, e, some s⟩) = some ⟨s, e, ⟨s, e, some s⟩, none⟩ from rfl] at hnew
    injection hnew with hnew
    subst hnew
    intro extra
    have hbox : boxList s e = (List.range' s.2.2 ((e.2.2 - s.2.2) + 1)).flatMap
        (fun c => planeList s e c) := by
      unfold boxList
      rw [show e.2.2 + 1 - s.2.2 = (e.2.2 - s.2.2) + 1 by omega]
    constructor
    · have hemit := emit_box s e hc.1 hc.2.1 (e.2.2 - s.2.2) extra s.2.2 (by omega)
      rw [show ((s.1 : Nat), (s.2.1 : Nat), (s.2.2 : Nat)) = s from rfl] at hemit
      show IndexIter.emit ⟨s, e, some s⟩ (extra + (boxList s e).length) = boxList s e
      rw [hbox, hemit, emit_exhausted, List.append_nil]
    · obtain ⟨vs, endCache, hemit, hmap⟩ :=
        valueEmit_box cs s e hch hc.1 hc.2.1 (e.2.2 - s.2.2) extra s.2.2 none
          (by omega) (le_refl _)
      rw [show ((s.1 : Nat), (s.2.1 : Nat), (s.2.2 : Nat)) = s from rfl] at hemit
      rw [valueEmit_exhausted] at hemit
      refine ⟨vs, ?_, ?_⟩
      · rw [hbox, hemit]
        show some (vs ++ []) = some vs
        rw [List.append_nil]
      · rw [hbox, hmap]
  · rw [if_neg hc] at hnew
    cases hnew

/-- Witness for C5: a chunk map holding the single-run tree `{0:7}` (capacity
32768) at every chunk coordinate, over the two-voxel box `(31,0,0)..(32,0,0)`
that crosses the axis-0 boundary between chunk `(0,0,0)` and chunk `(1,0,0)`. -/
theorem c5_value_iter_yields_stored_values_witness :
    IndexIter.emit
        (⟨((31 : Nat), (0 : Nat), (0 : Nat)), (32, 0, 0), some (31, 0, 0)⟩ : IndexIter)
        (0 + (boxList (31, 0, 0) (32, 0, 0)).length) = boxList (31, 0, 0) (32, 0, 0) ∧
      ∃ vs : List Nat,
        valueEmit ⟨fun _ => some ⟨⟨[⟨0, 7⟩], 32768⟩⟩⟩
            ⟨(31, 0, 0), (32, 0, 0), ⟨(31, 0, 0), (32, 0, 0), some (31, 0, 0)⟩, none⟩
            (0 + (boxList (31, 0, 0) (32, 0, 0)).length) = some vs ∧
          vs.map some = (boxList (31, 0, 0) (32, 0, 0)).map
            (storedAt ⟨fun _ => some ⟨⟨[⟨0, 7⟩], 32768⟩⟩⟩) :=
  c5_value_iter_yields_stored_values ⟨fun _ => some ⟨⟨[⟨0, 7⟩], 32768⟩⟩⟩
    (31, 0, 0) (32, 0, 0)
    (fun c hc => ⟨⟨⟨[⟨0, 7⟩], 32768⟩⟩, rfl, by decide, rfl⟩)
    ⟨(31, 0, 0), (32, 0, 0), ⟨(31, 0, 0), (32, 0, 0), some (31, 0, 0)⟩, none⟩ rfl 0

/-! ### bit_array.rs -/

/-- Rust's `usize::div_ceil`. -/
def divCeil (a b : Nat) : Nat := (a + b - 1) / b

/-- `core::mem::size_of::<usize>()` on the 64-bit targets the crate builds on. -/
def usizeBytes : Nat := 8

/-- `BitArray` (bit_array.rs lines 1–4): a vector of `usize` words. -/
structure BitArray where
  integers : List Nat
deriving DecidableEq

/-- `BitArray::new` (bit_array.rs lines 6–12).  Note the source computes
`bits.div_ceil(bits)` — the constant 1 for every positive `bits` — into a
variable named `bytes`. -/
def BitArray.new (bits : Nat) : BitArray :=
  let bytes := divCeil bits bits
  let integers := divCeil bytes usizeBytes
  ⟨List.replicate integers 0⟩

/-- `integer_index` (bit_array.rs lines 42–44): `bit_index / size_of::<usize>()`. -/
def integer_index (bit_index : Nat) : Nat := bit_index / usizeBytes

/-- `bit_offset` (bit_array.rs lines 45–47): `bit_index % size_of::<usize>()`. -/
def bit_offset (bit_index : Nat) : Nat := bit_index % usizeBytes

/-- `BitArray::capacity` (bit_array.rs lines 13–15). -/
def BitArray.capacity (b : BitArray) : Nat := b.integers.length * usizeBytes

/-- `BitArray::get` (bit_array.rs lines 20–25); an out-of-bounds word index is
a panic (`none`). -/
def BitArray.get (b : BitArray) (index : Nat) : Option Bool :=
  match b.integers[integer_index index]? with
  | none => none
  | some integer =>
    let pos := 1 <<< bit_offset index
    some (!(integer &&& pos == 0))

/-- `BitArray::set` = `bit_op(index, |integer, pos| integer | pos)`
(bit_array.rs lines 26–33). -/
def BitArray.set (b : BitArray) (index : Nat) : Option BitArray :=
  match b.integers[integer_index index]? with
  | none => none
  | some integer =>
    some ⟨b.integers.set (integer_index index) (integer ||| (1 <<< bit_offset index))⟩

/-- C10 — code bug evidence: `BitArray::new(bits)` computes
`bits.div_ceil(bits)` (the constant 1), so `new(16)` allocates a single word;
but `integer_index(8) = 1`, so `get(8)` and `set(8)` — with `8 < 16` — index
past the word buffer and panic, while in-range bits (e.g. 1, the one the
crate's own test uses) behave as claimed. -/
theorem c10_bit_array_new_underallocates :
    (BitArray.new 16).integers.length = 1 ∧
      (8 : Nat) < 16 ∧
      integer_index 8 = 1 ∧
      (BitArray.new 16).get 8 = none ∧
      (BitArray.new 16).set 8 = none ∧
      (BitArray.new 16).get 1 = some false ∧
      ((BitArray.new 16).set 1).bind (fun b => b.get 1) = some true := by
  decide
